import Mathlib

/-!
# Shallow embedding of the firmirror Synchronization & Metadata Reconciliation Engine

This file embeds the core of `pkg/firmirror/firmirror.go` (the
`FirmirrorSyncer` with `LoadMetadata`, `ProcessVendor`, `buildPackage`,
`calculateChecksums` and `SaveMetadata`) as executable Lean definitions and
proves properties of the embedded code.

Modelling conventions:
* The `lvfs` record types (`Checksum`, `Release`, `Component`, `Components`)
  are plain data structures; XML serialization is represented symbolically
  (a stored metadata object holds the `Components` value it encodes, and a
  byte blob that fails to decompress or parse is the `Obj.corrupt` case).
* The `Storage` backend (`Exists`/`Read`/`Write` keyed by flat names) is a
  key/object association list.
* Go's `map[string]*lvfs.Component` is embedded as an association list in
  insertion order; Go's *unspecified map iteration order* is modelled by a
  function `iter` that may reorder the entries, constrained in theorems to
  produce a permutation of the entries.
* The cryptographic digests of `calculateChecksums` are parameters
  (`sha1Fn`, `sha256Fn : List Nat → String`) of the pipeline; the embedded
  code only moves their values around, exactly like the Go code.
* Per-entry environment failures (mkdir, download, conversion, the external
  `fwupdtool` packaging step including its storage upload) are modelled by
  an `outcome` field on each catalog entry, matching the places where the
  Go code logs and `continue`s.
-/

namespace Firmirror

/-- `lvfs.Checksum`: digest record with the artifact filename it maps to,
the target kind (`content`/`container`), the algorithm tag and the hex
digest value. -/
structure Checksum where
  filename : String
  target : String
  type : String
  value : String
deriving Repr, DecidableEq

/-- `lvfs.URL`: typed provenance link attached to a component. -/
structure URL where
  type : String
  text : String
deriving Repr, DecidableEq

/-- `lvfs.Release`: one publishable version of a component, with its
checksum records and derived artifact location. -/
structure Release where
  version : String
  location : String
  checksums : List Checksum
deriving Repr, DecidableEq

/-- `lvfs.Component`: normalized firmware description. Nested XML-only
fields never read or written by the syncer core (description, provides,
requires, keywords, …) are elided; the fields the core touches (`ID`,
`URL`, `Releases`) and the inert identification strings are kept. -/
structure Component where
  type : String
  id : String
  name : String
  summary : String
  metadataLicense : String
  projectLicense : String
  url : URL
  releases : List Release
deriving Repr, DecidableEq

/-- `lvfs.Components`: the root metadata document, an origin marker plus
the list of component elements in document order. -/
structure Components where
  origin : String
  component : List Component
deriving Repr, DecidableEq

/-- An object held by the `Storage` backend. A stored metadata document is
represented by the `Components` value its compressed XML bytes encode;
`corrupt` stands for bytes that fail zstd decompression or XML parsing;
`cab` is a cabinet artifact produced by `buildPackage`; `sig` is the
detached `.jcat` signature artifact. -/
inductive Obj where
  | corrupt : Obj
  | metadata : Components → Obj
  | cab : String → List Nat → Obj
  | sig : String → Obj
deriving Repr, DecidableEq

/-- The `Storage` contract (`Exists`/`Read`/`Write` by flat key), as a
key/object association list. -/
def Storage : Type := List (String × Obj)

instance : DecidableEq Storage := by
  unfold Storage
  infer_instance

/-- `Storage.Read`/`Exists`: look an object up by key. -/
def Storage.find : Storage → String → Option Obj
  | [], _ => none
  | (k', o) :: rest, k => if k' = k then some o else Storage.find rest k

/-- `Storage.Write`: store an object under a key, replacing any previous
object at that key. -/
def Storage.write : Storage → String → Obj → Storage
  | [], k, o => [(k, o)]
  | (k', o') :: rest, k, o =>
      if k' = k then (k, o) :: rest else (k', o') :: Storage.write rest k o

/-- The fixed metadata object key used by `LoadMetadata`/`SaveMetadata`. -/
def metadataKey : String := "metadata.xml.zst"

/-- The mutable fields of `FirmirrorSyncer` that the claims concern:
`existingMetadata` (document loaded from `metadata.xml.zst`),
`existingIndex` (membership index of published firmware filenames) and
`newComponents` (components accumulated during this run). -/
structure SyncerState where
  existingMetadata : Option Components
  existingIndex : List String
  newComponents : List Component
deriving Repr, DecidableEq

/-- The state `NewFirmirrorSyncer` constructs: no loaded metadata, empty
membership index, empty pending list. -/
def initialSyncer : SyncerState :=
  { existingMetadata := none, existingIndex := [], newComponents := [] }

/-- The filenames a single release contributes to the membership index:
the non-empty filenames of its checksum records. -/
def releaseFilenames (rel : Release) : List String :=
  (rel.checksums.filter (fun c => c.filename ≠ "")).map (fun c => c.filename)

/-- The membership-index filenames contributed by a list of releases. -/
def releasesFilenames (rels : List Release) : List String :=
  rels.foldr (fun rel acc => releaseFilenames rel ++ acc) []

/-- The membership-index filenames contributed by one component. -/
def componentFilenames (c : Component) : List String :=
  releasesFilenames c.releases

/-- The index-building walk of `LoadMetadata`: every non-empty checksum
filename of every release of every component is inserted into
`existingIndex`. -/
def checksumIndex (doc : Components) : List String :=
  doc.component.foldr (fun comp acc => componentFilenames comp ++ acc) []

/-- Failure cases of `LoadMetadata` on an existing metadata object:
the storage read failing, or the bytes failing to decompress/parse. -/
inductive LoadError where
  | readFail : LoadError
  | parseFail : LoadError
deriving Repr, DecidableEq

/-- `LoadMetadata`: if no `metadata.xml.zst` object exists, start fresh
(success, state untouched); if it exists and decodes to a document, record
it and extend the membership index; if it exists but is corrupt (or is not
a metadata document at all), surface an error. -/
def loadMetadata (storage : Storage) (s : SyncerState) :
    Except LoadError SyncerState :=
  match storage.find metadataKey with
  | none => .ok s
  | some (Obj.metadata doc) =>
      .ok { s with
              existingMetadata := some doc,
              existingIndex := s.existingIndex ++ checksumIndex doc }
  | some _ => .error LoadError.parseFail

/-- Seeding step of `SaveMetadata`'s `componentMap`: Go's
`componentMap[comp.ID] = &comp` — replace the entry if the key is present,
otherwise add it. -/
def upsert : List (String × Component) → String → Component →
    List (String × Component)
  | [], k, c => [(k, c)]
  | (k', c') :: rest, k, c =>
      if k' = k then (k, c) :: rest else (k', c') :: upsert rest k c

/-- Merge step of `SaveMetadata` for one pending component: if its ID is
already mapped, append its releases to the mapped component's release list
(`existing.Releases = append(existing.Releases, comp.Releases...)`);
otherwise insert it as a new entry. -/
def mergeComponent : List (String × Component) → Component →
    List (String × Component)
  | [], c => [(c.id, c)]
  | (k, c') :: rest, c =>
      if k = c.id then
        (k, { c' with releases := c'.releases ++ c.releases }) :: rest
      else
        (k, c') :: mergeComponent rest c

/-- The `componentMap` of `SaveMetadata`: seeded from the previously
published document (`existingMetadata`), then each pending component is
merged or inserted. -/
def buildComponentMap (existing : Option Components)
    (pending : List Component) : List (String × Component) :=
  let seeded := match existing with
    | none => []
    | some doc => doc.component.foldl (fun m c => upsert m c.id c) []
  pending.foldl mergeComponent seeded

/-- The location-derivation step of `SaveMetadata`: a release with no
`Location` and at least one checksum gets
`Location = Checksums[0].Filename + ".cab"`; otherwise it is untouched. -/
def fixLocation (r : Release) : Release :=
  match r.checksums with
  | [] => r
  | c :: _ => if r.location = "" then { r with location := c.filename ++ ".cab" } else r

/-- A component as it is appended to the final document by `SaveMetadata`:
every release run through the location-derivation step. -/
def finalizeComponent (c : Component) : Component :=
  { c with releases := c.releases.map fixLocation }

/-- Observable side effects of `SaveMetadata` beyond the storage writes:
XML serialization, zstd compression, `jcat-tool` signing, and each
storage write by key. -/
inductive SaveEvent where
  | marshal : SaveEvent
  | compress : SaveEvent
  | sign : SaveEvent
  | storeWrite : String → SaveEvent
deriving Repr, DecidableEq

/-- `SaveMetadata`: no-op success when no components were accumulated this
run; otherwise build the `componentMap`, emit the merged document (in the
runtime-chosen map iteration order `iter`), and write the compressed
document and its signature artifact to storage. Returns the new storage
contents together with the list of performed effects. -/
def saveMetadata (iter : List (String × Component) → List (String × Component))
    (storage : Storage) (s : SyncerState) : Storage × List SaveEvent :=
  if s.newComponents = [] then (storage, [])
  else
    let m := buildComponentMap s.existingMetadata s.newComponents
    let doc : Components :=
      { origin := "firmirror",
        component := (iter m).map (fun p => finalizeComponent p.2) }
    ((storage.write metadataKey (Obj.metadata doc)).write
        (metadataKey ++ ".jcat") (Obj.sig metadataKey),
     [SaveEvent.marshal, SaveEvent.compress, SaveEvent.sign,
      SaveEvent.storeWrite metadataKey,
      SaveEvent.storeWrite (metadataKey ++ ".jcat")])

/-- `calculateChecksums`: both digests of the firmware blob, computed from
the same bytes (the Go code streams the file once through an
`io.MultiWriter` feeding both hashers). The digest algorithms themselves
are parameters of the embedding. -/
def calculateChecksums (sha1Fn sha256Fn : List Nat → String)
    (blob : List Nat) : String × String :=
  (sha1Fn blob, sha256Fn blob)

/-- The checksum-attachment loop of `buildPackage`: every release of the
component gets the two-element checksum list `[sha1 record, sha256
record]`, each with `Target = "content"` and `Filename` equal to the
firmware's canonical name. -/
def setChecksums (fwFile sha1Hash sha256Hash : String) (c : Component) :
    Component :=
  { c with releases := c.releases.map (fun r =>
      { r with checksums :=
          [{ filename := fwFile, target := "content",
             type := "sha1", value := sha1Hash },
           { filename := fwFile, target := "content",
             type := "sha256", value := sha256Hash }] }) }

/-- `buildPackage`: on success, returns the component with checksums
attached to every release, and the storage with the cabinet artifact
`<fwFile>.cab` written. `fail` models the per-entry hard-failure points
(checksum read, metainfo marshal/write, `fwupdtool build-cabinet`, cabinet
upload), all of which occur before the entry's component is accumulated. -/
def buildPackage (sha1Fn sha256Fn : List Nat → String) (storage : Storage)
    (c : Component) (fwFile : String) (blob : List Nat) (fail : Bool) :
    Except Unit (Component × Storage) :=
  if fail then .error ()
  else
    let hashes := calculateChecksums sha1Fn sha256Fn blob
    let c' := setChecksums fwFile hashes.1 hashes.2 c
    .ok (c', storage.write (fwFile ++ ".cab") (Obj.cab fwFile blob))

/-- The per-entry failure points of `ProcessVendor`'s loop at which the Go
code logs and `continue`s: temp-dir creation, `RetrieveFirmware`,
`ToAppstream`, and `buildPackage` (any of its internal hard failures). -/
inductive StepFail where
  | mkdirFail : StepFail
  | retrieveFail : StepFail
  | convertFail : StepFail
  | packageFail : StepFail
deriving Repr, DecidableEq

/-- A `FirmwareEntry` of a vendor catalog, together with the behavior of
the environment for this entry during the run: `filename` is
`GetFilename()`, `sourceURL` is `GetSourceURL()`, `appstream` is the
component `ToAppstream()` yields, `blob` is the firmware bytes
`RetrieveFirmware` materializes, and `outcome` records which pipeline step
(if any) fails for this entry. -/
structure Entry where
  filename : String
  sourceURL : String
  blob : List Nat
  appstream : Component
  outcome : Option StepFail
deriving Repr, DecidableEq

/-- The source-URL attachment step of `ProcessVendor`: a non-empty
`GetSourceURL()` is stored on the component as a homepage URL. -/
def attachURL (c : Component) (sourceURL : String) : Component :=
  if sourceURL ≠ "" then { c with url := { type := "homepage", text := sourceURL } }
  else c

/-- Observable actions of `ProcessVendor`'s per-entry loop, each tagged
with the entry's firmware filename: counting an entry as skipped, creating
its scratch directory, invoking `RetrieveFirmware`, invoking
`ToAppstream`, invoking `buildPackage`, and accumulating the finished
component. -/
inductive Event where
  | skip : String → Event
  | mkdirTmp : String → Event
  | retrieve : String → Event
  | convert : String → Event
  | package : String → Event
  | accumulate : String → Event
deriving Repr, DecidableEq

/-- The loop-carried state of `ProcessVendor`: the storage backend (written
to by `buildPackage`), the accumulated `newComponents`, the
processed/skipped counters, and the trace of observable actions. -/
structure LoopState where
  storage : Storage
  pending : List Component
  processed : Nat
  skipped : Nat
  trace : List Event
deriving DecidableEq

/-- One iteration of `ProcessVendor`'s entry loop (after the cancellation
check): skip if the filename is in the membership index; otherwise run
mkdir → retrieve → convert → attach URL → buildPackage, abandoning the
entry at the first failing step, and on full success accumulate the
component and bump the processed count. -/
def stepEntry (sha1Fn sha256Fn : List Nat → String) (index : List String)
    (st : LoopState) (e : Entry) : LoopState :=
  if index.contains e.filename then
    { st with skipped := st.skipped + 1, trace := st.trace ++ [Event.skip e.filename] }
  else if e.outcome = some StepFail.mkdirFail then
    { st with trace := st.trace ++ [Event.mkdirTmp e.filename] }
  else if e.outcome = some StepFail.retrieveFail then
    { st with trace := st.trace ++ [Event.mkdirTmp e.filename, Event.retrieve e.filename] }
  else if e.outcome = some StepFail.convertFail then
    { st with trace := st.trace ++
        [Event.mkdirTmp e.filename, Event.retrieve e.filename, Event.convert e.filename] }
  else
    match buildPackage sha1Fn sha256Fn st.storage (attachURL e.appstream e.sourceURL)
        e.filename e.blob (e.outcome = some StepFail.packageFail) with
    | .error _ =>
        { st with trace := st.trace ++
            [Event.mkdirTmp e.filename, Event.retrieve e.filename,
             Event.convert e.filename, Event.package e.filename] }
    | .ok (c', storage') =>
        { storage := storage',
          pending := st.pending ++ [c'],
          processed := st.processed + 1,
          skipped := st.skipped,
          trace := st.trace ++
            [Event.mkdirTmp e.filename, Event.retrieve e.filename,
             Event.convert e.filename, Event.package e.filename,
             Event.accumulate e.filename] }

/-- The run-scoped cancellation signal (`ctx.Done()`), observed once per
loop iteration: `some k` means the signal becomes ready at the `k`-th
iteration of the loop (counting all handled entries so far); `none` means
the run is never cancelled. -/
def cancelObserved (cancelAt : Option Nat) (i : Nat) : Bool :=
  match cancelAt with
  | none => false
  | some k => decide (k ≤ i)

/-- `ProcessVendor`'s entry loop: check cancellation at the top of each
iteration (returning `ctx.Err()`, i.e. `true` in the second result
component, with the state accumulated so far), else handle the entry and
continue. The membership index is never modified during the loop. -/
def processLoop (sha1Fn sha256Fn : List Nat → String) (cancelAt : Option Nat)
    (index : List String) (st : LoopState) (i : Nat) :
    List Entry → LoopState × Bool
  | [] => (st, false)
  | e :: rest =>
      if cancelObserved cancelAt i then (st, true)
      else processLoop sha1Fn sha256Fn cancelAt index
        (stepEntry sha1Fn sha256Fn index st e) (i + 1) rest

/-- A registered `Vendor`, reduced to its observable contract for one run:
`FetchCatalog` either fails or yields the catalog's entry listing. -/
structure Vendor where
  catalog : Except Unit (List Entry)

/-- The error results of `ProcessVendor`: the catalog fetch failed, or
cancellation was observed (`ctx.Err()`). -/
inductive PVError where
  | catalogFail : PVError
  | cancelled : PVError
deriving Repr, DecidableEq

/-- The observable outcome of one `ProcessVendor` call. -/
structure PVResult where
  state : SyncerState
  storage : Storage
  processed : Nat
  skipped : Nat
  trace : List Event
  err : Option PVError
deriving DecidableEq

/-- `ProcessVendor`: fetch the catalog (failure aborts this vendor and is
returned), then run the entry loop over the listing, accumulating into
`newComponents`. Cancellation returns an error but keeps everything
accumulated before the signal. -/
def processVendor (sha1Fn sha256Fn : List Nat → String)
    (cancelAt : Option Nat) (v : Vendor) (storage : Storage)
    (s : SyncerState) : PVResult :=
  match v.catalog with
  | .error _ =>
      { state := s, storage := storage, processed := 0, skipped := 0,
        trace := [], err := some PVError.catalogFail }
  | .ok entries =>
      let r := processLoop sha1Fn sha256Fn cancelAt s.existingIndex
        { storage := storage, pending := s.newComponents,
          processed := 0, skipped := 0, trace := [] } 0 entries
      { state := { s with newComponents := r.1.pending },
        storage := r.1.storage,
        processed := r.1.processed,
        skipped := r.1.skipped,
        trace := r.1.trace,
        err := if r.2 then some PVError.cancelled else none }

/-- The outcome of one full sync run against one vendor. -/
structure RunResult where
  storage : Storage
  state : SyncerState
  processed : Nat
  skipped : Nat
  trace : List Event
  pvErr : Option PVError
  saveEvents : List SaveEvent
deriving DecidableEq

/-- One full sync run, in the order the `main` driver executes it: a fresh
syncer, `LoadMetadata` (a load failure aborts the run), `ProcessVendor`,
then `SaveMetadata` (which the driver runs even when vendor processing
errored, detached from cancellation). -/
def runSync (sha1Fn sha256Fn : List Nat → String)
    (iter : List (String × Component) → List (String × Component))
    (cancelAt : Option Nat) (v : Vendor) (storage : Storage) :
    Except LoadError RunResult :=
  match loadMetadata storage initialSyncer with
  | .error e => .error e
  | .ok s =>
      let r := processVendor sha1Fn sha256Fn cancelAt v storage s
      let saved := saveMetadata iter r.storage r.state
      .ok { storage := saved.1, state := r.state, processed := r.processed,
            skipped := r.skipped, trace := r.trace, pvErr := r.err,
            saveEvents := saved.2 }

/-- Lookup in the embedded `componentMap` (`componentMap[comp.ID]`). -/
def lookupComp : List (String × Component) → String → Option Component
  | [], _ => none
  | (k', c) :: rest, k => if k' = k then some c else lookupComp rest k

/-- All membership-index filenames of the components held in a
`componentMap`. -/
def mapFilenames (m : List (String × Component)) : List String :=
  m.foldr (fun p acc => componentFilenames p.2 ++ acc) []

/-- The identity of a release for the spec's "dedupe by checksum
filename": the filename of its first (primary) checksum record, `none`
when the release has no checksums. -/
def releaseKey (r : Release) : Option String :=
  r.checksums.head?.map (fun c => c.filename)

/-- The component a fully successful entry contributes to
`newComponents`: the vendor's AppStream conversion with the source URL
attached and the two checksum records set on every release. -/
def processedComponent (sha1Fn sha256Fn : List Nat → String) (e : Entry) :
    Component :=
  setChecksums e.filename (sha1Fn e.blob) (sha256Fn e.blob)
    (attachURL e.appstream e.sourceURL)

/-- The trace-free observables of the entry loop's state: storage,
accumulated components, processed and skipped counters. -/
def loopObs (st : LoopState) : Storage × List Component × Nat × Nat :=
  (st.storage, st.pending, st.processed, st.skipped)

/-- A component with the fields the syncer core never reads left at their
zero values — the shape vendor converters produce in tests. -/
def plainComponent (i : String) (rels : List Release) : Component :=
  { type := "firmware", id := i, name := "", summary := "",
    metadataLicense := "", projectLicense := "", url := { type := "", text := "" },
    releases := rels }

/-- Two consecutive full sync runs over the same vendor catalog, starting
from the given storage; yields the second run's outcome when both runs
load their metadata successfully. -/
def secondRunOf (v : Vendor) (storage : Storage) : Option RunResult :=
  match runSync (fun _ => "h1") (fun _ => "h2") (fun m => m) none v storage with
  | .error _ => none
  | .ok r1 =>
      match runSync (fun _ => "h1") (fun _ => "h2") (fun m => m) none v
          r1.storage with
      | .error _ => none
      | .ok r2 => some r2

/-- A component whose single release is identified by checksum filename
`a.bin`, used to exhibit the behavior of the release merge when the same
checksum filename occurs on both sides. -/
def c1CexComp : Component :=
  plainComponent "com.example.x"
    [{ version := "1", location := "",
       checksums := [{ filename := "a.bin", target := "content",
                       type := "sha1", value := "v" }] }]

/-- The release keys of the component `SaveMetadata`'s merge produces for
identity `com.example.x` when the published document and the pending list
both carry `c1CexComp`. -/
def c1MergedKeys : List (Option String) :=
  match lookupComp
      (buildComponentMap (some { origin := "firmirror", component := [c1CexComp] })
        [c1CexComp]) "com.example.x" with
  | some cm => cm.releases.map releaseKey
  | none => []

/-- A catalog entry whose retrieval deterministically fails. -/
def c2CexEntry : Entry :=
  { filename := "a.bin", sourceURL := "", blob := [],
    appstream := plainComponent "com.example.x"
      [{ version := "1", location := "", checksums := [] }],
    outcome := some StepFail.retrieveFail }

/-- A catalog entry that succeeds at every pipeline step. -/
def okEntry (fw : String) : Entry :=
  { filename := fw, sourceURL := "", blob := [1],
    appstream := plainComponent ("com.example." ++ fw)
      [{ version := "1", location := "", checksums := [] }],
    outcome := none }

/-- A catalog entry that fails at the retrieval step. -/
def badEntry (fw : String) : Entry :=
  { filename := fw, sourceURL := "", blob := [],
    appstream := plainComponent ("com.example." ++ fw)
      [{ version := "1", location := "", checksums := [] }],
    outcome := some StepFail.retrieveFail }

/-- The outcome of a first sync run over the one-entry catalog
`[okEntry "a.bin"]` against empty storage (the fallback branch is never
reached: the run succeeds). -/
def c2Run1 : RunResult :=
  match runSync (fun _ => "h1") (fun _ => "h2") (fun m => m) none
      ⟨Except.ok [okEntry "a.bin"]⟩ [] with
  | Except.ok r => r
  | Except.error _ =>
      { storage := [], state := initialSyncer, processed := 0, skipped := 0,
        trace := [], pvErr := none, saveEvents := [] }

/-- A syncer state holding two distinct pending components, used to
exhibit the dependence of `SaveMetadata`'s serialization order on the map
iteration order. -/
def c9State : SyncerState :=
  { existingMetadata := none, existingIndex := [],
    newComponents :=
      [plainComponent "com.example.a"
         [{ version := "1", location := "",
            checksums := [{ filename := "a.bin", target := "content",
                            type := "sha1", value := "v" }] }],
       plainComponent "com.example.b"
         [{ version := "1", location := "",
            checksums := [{ filename := "b.bin", target := "content",
                            type := "sha1", value := "w" }] }]] }

/-- The `componentMap` built by `SaveMetadata` for `c9State`. -/
def c9Map : List (String × Component) :=
  buildComponentMap c9State.existingMetadata c9State.newComponents

/-- The metadata document `SaveMetadata` emits for `c9State` under the
identity iteration order. -/
def c9Doc : Components :=
  { origin := "firmirror",
    component := c9Map.map (fun p => finalizeComponent p.2) }

/-- First pending component of a run producing the same identity twice. -/
def c10c1 : Component :=
  plainComponent "com.example.a"
    [{ version := "1", location := "",
       checksums := [{ filename := "a.bin", target := "content",
                       type := "sha1", value := "v" }] }]

/-- Second pending component of the same run, same identity as `c10c1`. -/
def c10c2 : Component :=
  plainComponent "com.example.a"
    [{ version := "2", location := "",
       checksums := [{ filename := "b.bin", target := "content",
                       type := "sha1", value := "w" }] }]

/-- A run state whose pending list holds two components sharing one
identity that is not previously published. -/
def c10State : SyncerState :=
  { existingMetadata := none, existingIndex := [],
    newComponents := [c10c1, c10c2] }

/-- The metadata document `SaveMetadata` emits for `c10State` under the
identity iteration order. -/
def c10Doc : Components :=
  { origin := "firmirror",
    component :=
      (buildComponentMap c10State.existingMetadata c10State.newComponents).map
        (fun p => finalizeComponent p.2) }

/-- The firmware filename an observable loop action concerns. -/
def Event.fwName : Event → String
  | Event.skip fw => fw
  | Event.mkdirTmp fw => fw
  | Event.retrieve fw => fw
  | Event.convert fw => fw
  | Event.package fw => fw
  | Event.accumulate fw => fw

/-! ## Basic lemmas about the storage backend -/

theorem Storage.find_write_self (st : Storage) (k : String) (o : Obj) :
    (st.write k o).find k = some o := by
  induction st with
  | nil => simp [Storage.write, Storage.find]
  | cons hd tl ih =>
      obtain ⟨k', o'⟩ := hd
      by_cases h : k' = k
      · simp [Storage.write, Storage.find, h]
      · simp [Storage.write, Storage.find, h, ih]

theorem Storage.find_write_ne (st : Storage) (k k' : String) (o : Obj)
    (h : k ≠ k') : (st.write k o).find k' = st.find k' := by
  induction st with
  | nil => simp [Storage.write, Storage.find, h]
  | cons hd tl ih =>
      obtain ⟨k0, o0⟩ := hd
      by_cases h0 : k0 = k
      · subst h0
        simp [Storage.write, Storage.find, h]
      · simp [Storage.write, h0, Storage.find]
        by_cases h1 : k0 = k'
        · simp [h1]
        · simp [h1, ih]

/-- The metadata key and the signature key written by `SaveMetadata` are
distinct, so the second write does not clobber the metadata object. -/
theorem metadataKey_ne_sigKey : metadataKey ≠ metadataKey ++ ".jcat" := by
  decide

/-- The metadata document stored by a non-skipping `SaveMetadata` call. -/
theorem saveMetadata_find (iter : List (String × Component) → List (String × Component))
    (storage : Storage) (s : SyncerState) (hne : s.newComponents ≠ []) :
    ((saveMetadata iter storage s).1.find metadataKey) =
      some (Obj.metadata
        { origin := "firmirror",
          component :=
            (iter (buildComponentMap s.existingMetadata s.newComponents)).map
              (fun p => finalizeComponent p.2) }) := by
  simp only [saveMetadata, if_neg hne]
  rw [Storage.find_write_ne _ _ _ _ (fun h => metadataKey_ne_sigKey h.symm),
    Storage.find_write_self]

/-! ## C5: no-op save -/

/-- C5: if the pending-components list is empty when `SaveMetadata` runs,
it returns success having performed no serialization, compression, signing
or storage write (empty effect list), so the storage backend — including
its metadata object — is left exactly as it was. -/
theorem saveMetadata_noop
    (iter : List (String × Component) → List (String × Component))
    (storage : Storage) (s : SyncerState) (h : s.newComponents = []) :
    saveMetadata iter storage s = (storage, []) := by
  simp [saveMetadata, h]

theorem saveMetadata_noop_witness :
    initialSyncer.newComponents = [] ∧
    saveMetadata (fun m => m) [(metadataKey, Obj.corrupt)] initialSyncer =
      ([(metadataKey, Obj.corrupt)], []) :=
  ⟨rfl, saveMetadata_noop (fun m => m) [(metadataKey, Obj.corrupt)]
    initialSyncer rfl⟩

/-! ## C6: load-phase error handling -/

/-- C6: `LoadMetadata` succeeds, leaving the freshly-constructed syncer
untouched (no loaded document, empty membership index), when the metadata
object is absent from storage; and it surfaces an error — never silently
treating the state as empty — when an existing metadata object fails to
decompress or to parse as XML. -/
theorem loadMetadata_absent_or_corrupt (storage : Storage) :
    initialSyncer.existingMetadata = none ∧
    initialSyncer.existingIndex = [] ∧
    (storage.find metadataKey = none →
      loadMetadata storage initialSyncer = Except.ok initialSyncer) ∧
    (∀ o, storage.find metadataKey = some o → (∀ doc, o ≠ Obj.metadata doc) →
      loadMetadata storage initialSyncer = Except.error LoadError.parseFail) := by
  refine ⟨rfl, rfl, ?_, ?_⟩
  · intro h
    simp [loadMetadata, h]
  · intro o h hno
    cases o with
    | metadata doc => exact absurd rfl (hno doc)
    | corrupt => simp [loadMetadata, h]
    | cab fw blob => simp [loadMetadata, h]
    | sig covers => simp [loadMetadata, h]

theorem loadMetadata_absent_or_corrupt_witness :
    loadMetadata [] initialSyncer = Except.ok initialSyncer ∧
    loadMetadata [(metadataKey, Obj.corrupt)] initialSyncer =
      Except.error LoadError.parseFail :=
  ⟨(loadMetadata_absent_or_corrupt []).2.2.1 rfl,
   (loadMetadata_absent_or_corrupt [(metadataKey, Obj.corrupt)]).2.2.2
     Obj.corrupt (by decide) (fun doc h => Obj.noConfusion h)⟩

/-! ## C7: checksum attachment by buildPackage -/

/-- C7: whenever `buildPackage` succeeds on a component, every release of
the resulting component carries exactly the two checksum records computed
from the firmware blob — the legacy `sha1` digest and the modern `sha256`
digest — each with target `"content"` and filename equal to the firmware's
canonical name, the same digest values appearing on every release; and no
release is added or dropped. -/
theorem buildPackage_checksums (sha1Fn sha256Fn : List Nat → String)
    (storage : Storage) (c : Component) (fwFile : String) (blob : List Nat)
    (fail : Bool) (c' : Component) (storage' : Storage)
    (h : buildPackage sha1Fn sha256Fn storage c fwFile blob fail =
      Except.ok (c', storage')) :
    c'.releases.length = c.releases.length ∧
    ∀ r ∈ c'.releases,
      r.checksums =
        [{ filename := fwFile, target := "content", type := "sha1",
           value := sha1Fn blob },
         { filename := fwFile, target := "content", type := "sha256",
           value := sha256Fn blob }] := by
  cases fail with
  | true => simp [buildPackage] at h
  | false =>
      simp only [buildPackage, if_neg Bool.false_ne_true, calculateChecksums,
        Except.ok.injEq, Prod.mk.injEq] at h
      obtain ⟨hc, _⟩ := h
      subst hc
      constructor
      · simp [setChecksums]
      · intro r hr
        simp only [setChecksums, List.mem_map] at hr
        obtain ⟨r0, _, hr0⟩ := hr
        subst hr0
        rfl

theorem buildPackage_checksums_witness :
    buildPackage (fun _ => "h1") (fun _ => "h2") [] (plainComponent "i"
      [{ version := "1", location := "", checksums := [] }]) "a.bin" [7] false =
      Except.ok (setChecksums "a.bin" "h1" "h2" (plainComponent "i"
        [{ version := "1", location := "", checksums := [] }]),
        Storage.write [] ("a.bin" ++ ".cab") (Obj.cab "a.bin" [7])) ∧
    ∀ r ∈ (setChecksums "a.bin" "h1" "h2" (plainComponent "i"
        [{ version := "1", location := "", checksums := [] }])).releases,
      r.checksums =
        [{ filename := "a.bin", target := "content", type := "sha1",
           value := "h1" },
         { filename := "a.bin", target := "content", type := "sha256",
           value := "h2" }] :=
  ⟨rfl,
   (buildPackage_checksums (fun _ => "h1") (fun _ => "h2") [] _ "a.bin" [7]
     false _ _ rfl).2⟩

/-! ## C4: location derivation -/

/-- C4: in the document produced by a (non-skipping) `SaveMetadata` call,
every release is the location-derivation image of a merged release:
a release lacking a `Location` that has at least one checksum gets
`Location = <first checksum filename>.cab`, a release whose `Location` is
already non-empty is left completely unchanged, and the derivation never
touches the checksum records themselves. -/
theorem saveMetadata_location_derivation
    (iter : List (String × Component) → List (String × Component))
    (storage : Storage) (s : SyncerState) (hne : s.newComponents ≠ []) :
    ((saveMetadata iter storage s).1.find metadataKey =
       some (Obj.metadata
         { origin := "firmirror",
           component :=
             (iter (buildComponentMap s.existingMetadata s.newComponents)).map
               (fun p => { p.2 with releases := p.2.releases.map fixLocation }) })) ∧
    (∀ r : Release, ∀ cs : Checksum, ∀ rest : List Checksum,
       r.location = "" → r.checksums = cs :: rest →
       fixLocation r = { r with location := cs.filename ++ ".cab" }) ∧
    (∀ r : Release, r.location ≠ "" → fixLocation r = r) ∧
    (∀ r : Release, (fixLocation r).checksums = r.checksums) := by
  refine ⟨?_, ?_, ?_, ?_⟩
  · rw [saveMetadata_find iter storage s hne]
    rfl
  · intro r cs rest hloc hcs
    simp [fixLocation, hcs, hloc]
  · intro r hloc
    cases hcs : r.checksums with
    | nil => simp [fixLocation, hcs]
    | cons c rest => simp [fixLocation, hcs, hloc]
  · intro r
    cases hcs : r.checksums with
    | nil => simp [fixLocation, hcs]
    | cons c rest =>
        by_cases hloc : r.location = ""
        · simp [fixLocation, hcs, hloc]
        · simp [fixLocation, hcs, hloc]

theorem saveMetadata_location_derivation_witness :
    c9State.newComponents ≠ [] ∧
    ((saveMetadata (fun m => m) [] c9State).1.find metadataKey =
       some (Obj.metadata
         { origin := "firmirror",
           component :=
             ((fun m => m) (buildComponentMap c9State.existingMetadata
                 c9State.newComponents)).map
               (fun p => { p.2 with releases := p.2.releases.map fixLocation }) })) ∧
    fixLocation { version := "1", location := "",
                  checksums := [{ filename := "a.bin", target := "content",
                                  type := "sha1", value := "v" }] } =
      { version := "1", location := "a.bin" ++ ".cab",
        checksums := [{ filename := "a.bin", target := "content",
                        type := "sha1", value := "v" }] } :=
  ⟨by decide,
   (saveMetadata_location_derivation (fun m => m) [] c9State (by decide)).1,
   (saveMetadata_location_derivation (fun m => m) [] c9State (by decide)).2.1
     _ _ [] rfl rfl⟩

/-! ## Lemmas about the entry loop -/

theorem stepEntry_trace (sha1Fn sha256Fn : List Nat → String)
    (index : List String) (st : LoopState) (e : Entry) :
    ∃ evs, (stepEntry sha1Fn sha256Fn index st e).trace = st.trace ++ evs ∧
      (∀ ev ∈ evs, ev.fwName = e.filename) ∧
      (index.contains e.filename = true → evs = [Event.skip e.filename]) := by
  cases hc : index.contains e.filename with
  | true =>
      have hmem : e.filename ∈ index := by simpa using hc
      refine ⟨[Event.skip e.filename], by simp [stepEntry, hmem], ?_, fun _ => rfl⟩
      intro ev hev
      simp at hev
      subst hev
      rfl
  | false =>
      have hmem : e.filename ∉ index := by simpa using hc
      simp only [stepEntry, hmem, if_false]
      by_cases h1 : e.outcome = some StepFail.mkdirFail
      · refine ⟨[Event.mkdirTmp e.filename], by simp [hmem, h1], ?_, by simp [hc]⟩
        intro ev hev
        simp at hev
        subst hev
        rfl
      · by_cases h2 : e.outcome = some StepFail.retrieveFail
        · refine ⟨[Event.mkdirTmp e.filename, Event.retrieve e.filename],
            by simp [hmem, h1, h2], ?_, by simp [hc]⟩
          intro ev hev
          simp at hev
          rcases hev with h | h <;> (subst h; rfl)
        · by_cases h3 : e.outcome = some StepFail.convertFail
          · refine ⟨[Event.mkdirTmp e.filename, Event.retrieve e.filename,
              Event.convert e.filename], by simp [hmem, h1, h2, h3], ?_, by simp [hc]⟩
            intro ev hev
            simp at hev
            rcases hev with h | h | h <;> (subst h; rfl)
          · by_cases h4 : e.outcome = some StepFail.packageFail
            · refine ⟨[Event.mkdirTmp e.filename, Event.retrieve e.filename,
                Event.convert e.filename, Event.package e.filename],
                by simp [hmem, h1, h2, h3, h4, buildPackage], ?_, by simp [hc]⟩
              intro ev hev
              simp at hev
              rcases hev with h | h | h | h <;> (subst h; rfl)
            · refine ⟨[Event.mkdirTmp e.filename, Event.retrieve e.filename,
                Event.convert e.filename, Event.package e.filename,
                Event.accumulate e.filename],
                by simp [hmem, h1, h2, h3, h4, buildPackage, calculateChecksums], ?_,
                by simp [hc]⟩
              intro ev hev
              simp at hev
              rcases hev with h | h | h | h | h <;> (subst h; rfl)

theorem processLoop_skip_events (sha1Fn sha256Fn : List Nat → String)
    (cancelAt : Option Nat) (index : List String) (fw : String)
    (hfw : index.contains fw = true) (entries : List Entry) :
    ∀ st i, Event.retrieve fw ∉ st.trace → Event.mkdirTmp fw ∉ st.trace →
      Event.retrieve fw ∉
          (processLoop sha1Fn sha256Fn cancelAt index st i entries).1.trace ∧
      Event.mkdirTmp fw ∉
          (processLoop sha1Fn sha256Fn cancelAt index st i entries).1.trace := by
  induction entries with
  | nil => intro st i hr hm; exact ⟨hr, hm⟩
  | cons e rest ih =>
      intro st i hr hm
      simp only [processLoop]
      cases cancelObserved cancelAt i with
      | true => exact ⟨hr, hm⟩
      | false =>
          simp only [Bool.false_eq_true, if_false]
          obtain ⟨evs, htr, hall, hskip⟩ := stepEntry_trace sha1Fn sha256Fn index st e
          have hstep : ∀ ev : Event, ev.fwName = fw → ev ∉
              (stepEntry sha1Fn sha256Fn index st e).trace → True := fun _ _ _ => trivial
          apply ih
          · rw [htr]
            intro hmem
            rcases List.mem_append.mp hmem with h | h
            · exact hr h
            · by_cases hfe : e.filename = fw
              · rw [hskip (hfe ▸ hfw)] at h
                simp at h
              · exact hfe ((hall _ h).symm ▸ rfl)
          · rw [htr]
            intro hmem
            rcases List.mem_append.mp hmem with h | h
            · exact hm h
            · by_cases hfe : e.filename = fw
              · rw [hskip (hfe ▸ hfw)] at h
                simp at h
              · exact hfe ((hall _ h).symm ▸ rfl)

theorem stepEntry_skipped (sha1Fn sha256Fn : List Nat → String)
    (index : List String) (st : LoopState) (e : Entry) :
    (stepEntry sha1Fn sha256Fn index st e).skipped =
      if index.contains e.filename then st.skipped + 1 else st.skipped := by
  cases hc : index.contains e.filename with
  | true =>
      have hmem : e.filename ∈ index := by simpa using hc
      simp [stepEntry, hmem]
  | false =>
      have hmem : e.filename ∉ index := by simpa using hc
      simp only [stepEntry, hmem, if_false, if_neg hmem]
      by_cases h1 : e.outcome = some StepFail.mkdirFail
      · simp [hmem, h1]
      · by_cases h2 : e.outcome = some StepFail.retrieveFail
        · simp [hmem, h1, h2]
        · by_cases h3 : e.outcome = some StepFail.convertFail
          · simp [hmem, h1, h2, h3]
          · by_cases h4 : e.outcome = some StepFail.packageFail
            · simp [hmem, h1, h2, h3, h4, buildPackage]
            · simp [hmem, h1, h2, h3, h4, buildPackage, calculateChecksums]

theorem processLoop_none_eq_foldl (sha1Fn sha256Fn : List Nat → String)
    (index : List String) (entries : List Entry) :
    ∀ st i, processLoop sha1Fn sha256Fn none index st i entries =
      (entries.foldl (stepEntry sha1Fn sha256Fn index) st, false) := by
  induction entries with
  | nil => intro st i; rfl
  | cons e rest ih =>
      intro st i
      simp only [processLoop, cancelObserved, List.foldl_cons]
      exact ih _ (i + 1)

theorem foldl_stepEntry_skipped (sha1Fn sha256Fn : List Nat → String)
    (index : List String) (entries : List Entry) :
    ∀ st : LoopState,
      (entries.foldl (stepEntry sha1Fn sha256Fn index) st).skipped =
        st.skipped +
          (entries.filter (fun e => index.contains e.filename)).length := by
  induction entries with
  | nil => intro st; simp
  | cons e rest ih =>
      intro st
      simp only [List.foldl_cons, ih, stepEntry_skipped]
      by_cases hmem : e.filename ∈ index
      · simp [List.filter_cons, hmem, Nat.add_comm, Nat.add_assoc,
          Nat.add_left_comm]
      · simp [List.filter_cons, hmem]

/-! ## C3: skip invariant -/

/-- C3: for every filename present in the membership index at the start of
a `ProcessVendor` run, no retrieval (`RetrieveFirmware`) and no
scratch-directory creation ever happens for that filename during the run —
regardless of cancellation — and (in an uncancelled run over a fetched
catalog) the skipped count is exactly the number of catalog entries whose
filename is in the index. -/
theorem processVendor_skip_invariant (sha1Fn sha256Fn : List Nat → String)
    (cancelAt : Option Nat) (v : Vendor) (storage : Storage)
    (s : SyncerState) (fw : String)
    (hfw : s.existingIndex.contains fw = true) :
    Event.retrieve fw ∉
        (processVendor sha1Fn sha256Fn cancelAt v storage s).trace ∧
    Event.mkdirTmp fw ∉
        (processVendor sha1Fn sha256Fn cancelAt v storage s).trace ∧
    (∀ entries, v.catalog = Except.ok entries → cancelAt = none →
      (processVendor sha1Fn sha256Fn cancelAt v storage s).skipped =
        (entries.filter (fun e => s.existingIndex.contains e.filename)).length) := by
  obtain ⟨cat⟩ := v
  cases cat with
  | error u =>
      refine ⟨by simp [processVendor], by simp [processVendor], ?_⟩
      intro entries h
      exact absurd h (by simp)
  | ok entries =>
      have hinv := processLoop_skip_events sha1Fn sha256Fn cancelAt
        s.existingIndex fw hfw entries
        { storage := storage, pending := s.newComponents, processed := 0,
          skipped := 0, trace := [] } 0 (by simp) (by simp)
      refine ⟨?_, ?_, ?_⟩
      · simpa [processVendor] using hinv.1
      · simpa [processVendor] using hinv.2
      · intro entries' hent hcan
        subst hcan
        have hee : entries = entries' := by simpa using hent
        subst hee
        simp [processVendor, processLoop_none_eq_foldl,
          foldl_stepEntry_skipped]

theorem processVendor_skip_invariant_witness :
    (["a.bin"].contains "a.bin" = true) ∧
    (Event.retrieve "a.bin" ∉
      (processVendor (fun _ => "h1") (fun _ => "h2") none
        ⟨Except.ok [c2CexEntry]⟩ []
        { existingMetadata := none, existingIndex := ["a.bin"],
          newComponents := [] }).trace) ∧
    ((processVendor (fun _ => "h1") (fun _ => "h2") none
        ⟨Except.ok [c2CexEntry]⟩ []
        { existingMetadata := none, existingIndex := ["a.bin"],
          newComponents := [] }).skipped = 1) := by
  have h := processVendor_skip_invariant (fun _ => "h1") (fun _ => "h2") none
    ⟨Except.ok [c2CexEntry]⟩ []
    { existingMetadata := none, existingIndex := ["a.bin"],
      newComponents := [] } "a.bin" (by decide)
  exact ⟨by decide, h.1, by
    rw [h.2.2 [c2CexEntry] rfl rfl]
    decide⟩

/-! ## Per-step characterizations of the entry loop -/

theorem stepEntry_skip_eq (sha1Fn sha256Fn : List Nat → String)
    (index : List String) (st : LoopState) (e : Entry)
    (hmem : e.filename ∈ index) :
    stepEntry sha1Fn sha256Fn index st e =
      { st with skipped := st.skipped + 1,
                trace := st.trace ++ [Event.skip e.filename] } := by
  simp [stepEntry, hmem]

theorem stepEntry_fail_eq (sha1Fn sha256Fn : List Nat → String)
    (index : List String) (st : LoopState) (e : Entry) (f : StepFail)
    (hf : e.outcome = some f) (hmem : e.filename ∉ index) :
    loopObs (stepEntry sha1Fn sha256Fn index st e) = loopObs st := by
  cases f with
  | mkdirFail => simp [stepEntry, hmem, hf, loopObs]
  | retrieveFail => simp [stepEntry, hmem, hf, loopObs]
  | convertFail => simp [stepEntry, hmem, hf, loopObs]
  | packageFail => simp [stepEntry, hmem, hf, buildPackage, loopObs]

theorem stepEntry_success_eq (sha1Fn sha256Fn : List Nat → String)
    (index : List String) (st : LoopState) (e : Entry)
    (h : e.outcome = none) (hmem : e.filename ∉ index) :
    stepEntry sha1Fn sha256Fn index st e =
      { storage := st.storage.write (e.filename ++ ".cab")
          (Obj.cab e.filename e.blob),
        pending := st.pending ++ [processedComponent sha1Fn sha256Fn e],
        processed := st.processed + 1,
        skipped := st.skipped,
        trace := st.trace ++
          [Event.mkdirTmp e.filename, Event.retrieve e.filename,
           Event.convert e.filename, Event.package e.filename,
           Event.accumulate e.filename] } := by
  simp [stepEntry, hmem, h, buildPackage, calculateChecksums,
    processedComponent]

theorem stepEntry_obs_congr (sha1Fn sha256Fn : List Nat → String)
    (index : List String) (st1 st2 : LoopState) (e : Entry)
    (h : loopObs st1 = loopObs st2) :
    loopObs (stepEntry sha1Fn sha256Fn index st1 e) =
      loopObs (stepEntry sha1Fn sha256Fn index st2 e) := by
  obtain ⟨σ1, p1, pr1, sk1, t1⟩ := st1
  obtain ⟨σ2, p2, pr2, sk2, t2⟩ := st2
  simp only [loopObs, Prod.mk.injEq] at h
  obtain ⟨h1, h2, h3, h4⟩ := h
  subst h1; subst h2; subst h3; subst h4
  by_cases hmem : e.filename ∈ index
  · simp [stepEntry, hmem, loopObs]
  · by_cases h1 : e.outcome = some StepFail.mkdirFail
    · simp [stepEntry, hmem, h1, loopObs]
    · by_cases h2 : e.outcome = some StepFail.retrieveFail
      · simp [stepEntry, hmem, h1, h2, loopObs]
      · by_cases h3 : e.outcome = some StepFail.convertFail
        · simp [stepEntry, hmem, h1, h2, h3, loopObs]
        · by_cases h4 : e.outcome = some StepFail.packageFail
          · simp [stepEntry, hmem, h1, h2, h3, h4, buildPackage, loopObs]
          · simp [stepEntry, hmem, h1, h2, h3, h4, buildPackage,
              calculateChecksums, loopObs]

theorem foldl_stepEntry_obs_congr (sha1Fn sha256Fn : List Nat → String)
    (index : List String) (entries : List Entry) :
    ∀ st1 st2, loopObs st1 = loopObs st2 →
      loopObs (entries.foldl (stepEntry sha1Fn sha256Fn index) st1) =
        loopObs (entries.foldl (stepEntry sha1Fn sha256Fn index) st2) := by
  induction entries with
  | nil => intro st1 st2 h; exact h
  | cons e rest ih =>
      intro st1 st2 h
      exact ih _ _ (stepEntry_obs_congr sha1Fn sha256Fn index st1 st2 e h)

/-- The trace-free observables of the loop over entries that all succeed
when attempted: each non-indexed entry writes its cabinet, appends its
processed component and bumps the processed count; each indexed entry just
bumps the skipped count. -/
theorem foldl_stepEntry_mixed (sha1Fn sha256Fn : List Nat → String)
    (index : List String) (entries : List Entry)
    (hok : ∀ e ∈ entries, e.outcome = none) :
    ∀ st, loopObs (entries.foldl (stepEntry sha1Fn sha256Fn index) st) =
      ((entries.filter (fun e => !(index.contains e.filename))).foldl
          (fun σ e => σ.write (e.filename ++ ".cab") (Obj.cab e.filename e.blob))
          st.storage,
       st.pending ++
         (entries.filter (fun e => !(index.contains e.filename))).map
           (processedComponent sha1Fn sha256Fn),
       st.processed +
         (entries.filter (fun e => !(index.contains e.filename))).length,
       st.skipped +
         (entries.filter (fun e => index.contains e.filename)).length) := by
  induction entries with
  | nil => intro st; simp [loopObs]
  | cons e rest ih =>
      intro st
      have hok' : ∀ e' ∈ rest, e'.outcome = none :=
        fun e' h' => hok e' (List.mem_cons_of_mem e h')
      have he : e.outcome = none := hok e (List.mem_cons_self e rest)
      by_cases hmem : e.filename ∈ index
      · simp only [List.foldl_cons,
          stepEntry_skip_eq sha1Fn sha256Fn index st e hmem, ih hok']
        simp [List.filter_cons, hmem, Nat.add_comm, Nat.add_assoc,
          Nat.add_left_comm]
      · simp only [List.foldl_cons,
          stepEntry_success_eq sha1Fn sha256Fn index st e he hmem, ih hok']
        simp [List.filter_cons, hmem, Nat.add_comm, Nat.add_assoc,
          Nat.add_left_comm]

/-! ## C8: entry isolation -/

/-- C8: for a fetched catalog `pre ++ bad :: post` in which exactly the
entry `bad` fails (at retrieval, conversion or packaging) and every other
entry succeeds when attempted, an uncancelled `ProcessVendor` returns no
error, processes exactly `N − 1 = |pre| + |post|` entries, appends exactly
the `N − 1` successful components to the pending list, and produces the
same state, storage and counters as the run over the catalog with `bad`
removed — the failing entry does not change how any other entry is
handled. Moreover `ProcessVendor` can return an error only when the
catalog fetch itself fails or cancellation is observed. -/
theorem processVendor_entry_isolation (sha1Fn sha256Fn : List Nat → String)
    (storage : Storage) (s : SyncerState)
    (pre post : List Entry) (bad : Entry) (f : StepFail)
    (hbad : bad.outcome = some f)
    (hbadmem : bad.filename ∉ s.existingIndex)
    (hok : ∀ e ∈ pre ++ post,
      e.outcome = none ∧ e.filename ∉ s.existingIndex) :
    (processVendor sha1Fn sha256Fn none ⟨Except.ok (pre ++ bad :: post)⟩
        storage s).err = none ∧
    (processVendor sha1Fn sha256Fn none ⟨Except.ok (pre ++ bad :: post)⟩
        storage s).processed = pre.length + post.length ∧
    (processVendor sha1Fn sha256Fn none ⟨Except.ok (pre ++ bad :: post)⟩
        storage s).state.newComponents =
      s.newComponents ++
        (pre ++ post).map (processedComponent sha1Fn sha256Fn) ∧
    (processVendor sha1Fn sha256Fn none ⟨Except.ok (pre ++ bad :: post)⟩
        storage s).state =
      (processVendor sha1Fn sha256Fn none ⟨Except.ok (pre ++ post)⟩
        storage s).state ∧
    (processVendor sha1Fn sha256Fn none ⟨Except.ok (pre ++ bad :: post)⟩
        storage s).storage =
      (processVendor sha1Fn sha256Fn none ⟨Except.ok (pre ++ post)⟩
        storage s).storage ∧
    (processVendor sha1Fn sha256Fn none ⟨Except.ok (pre ++ bad :: post)⟩
        storage s).skipped =
      (processVendor sha1Fn sha256Fn none ⟨Except.ok (pre ++ post)⟩
        storage s).skipped ∧
    (∀ cancelAt v' storage' s',
      (processVendor sha1Fn sha256Fn cancelAt v' storage' s').err ≠ none →
      (∃ u, v'.catalog = Except.error u) ∨ cancelAt ≠ none) := by
  set st0 : LoopState :=
    { storage := storage, pending := s.newComponents, processed := 0,
      skipped := 0, trace := [] } with hst0
  have hobs : loopObs ((pre ++ bad :: post).foldl
        (stepEntry sha1Fn sha256Fn s.existingIndex) st0) =
      loopObs ((pre ++ post).foldl
        (stepEntry sha1Fn sha256Fn s.existingIndex) st0) := by
    rw [show pre ++ bad :: post = (pre ++ [bad]) ++ post by simp,
      List.foldl_append, List.foldl_append, List.foldl_append]
    apply foldl_stepEntry_obs_congr
    simp only [List.foldl_cons, List.foldl_nil]
    exact stepEntry_fail_eq sha1Fn sha256Fn s.existingIndex _ bad f hbad hbadmem
  have hmix := foldl_stepEntry_mixed sha1Fn sha256Fn s.existingIndex
    (pre ++ post) (fun e he => (hok e he).1) st0
  have hfilt : (pre ++ post).filter
      (fun e => !(s.existingIndex.contains e.filename)) = pre ++ post := by
    apply List.filter_eq_self.mpr
    intro e he
    simp [(hok e he).2]
  have hfilt2 : (pre ++ post).filter
      (fun e => s.existingIndex.contains e.filename) = [] := by
    apply List.filter_eq_nil_iff.mpr
    intro e he
    simp [(hok e he).2]
  rw [hfilt, hfilt2] at hmix
  have hobs2 := hobs.trans hmix
  simp only [loopObs, hst0, Prod.mk.injEq] at hobs2
  obtain ⟨hσ, hp, hpr, hsk⟩ := hobs2
  have hgen : ∀ cancelAt v' (storage' : Storage) s',
      (processVendor sha1Fn sha256Fn cancelAt v' storage' s').err ≠ none →
      (∃ u, v'.catalog = Except.error u) ∨ cancelAt ≠ none := by
    intro cancelAt v' storage' s' herr
    obtain ⟨cat⟩ := v'
    cases cat with
    | error u => exact Or.inl ⟨u, rfl⟩
    | ok entries =>
        cases cancelAt with
        | none =>
            exact absurd (by
              simp [processVendor, processLoop_none_eq_foldl]) herr
        | some k => exact Or.inr (by simp)
  have hobsc := hobs
  simp only [loopObs, hst0, Prod.mk.injEq] at hobsc
  obtain ⟨hσe, hpe, hpre2, hske⟩ := hobsc
  refine ⟨?_, ?_, ?_, ?_, ?_, ?_, hgen⟩
  · simp [processVendor, processLoop_none_eq_foldl]
  · simp only [processVendor, processLoop_none_eq_foldl]
    simpa using hpr
  · simp only [processVendor, processLoop_none_eq_foldl]
    simpa using hp
  · simp only [processVendor, processLoop_none_eq_foldl]
    exact congrArg (fun l => { s with newComponents := l }) hpe
  · simp only [processVendor, processLoop_none_eq_foldl]
    simpa using hσe
  · simp only [processVendor, processLoop_none_eq_foldl]
    simpa using hske

theorem processVendor_entry_isolation_witness :
    (processVendor (fun _ => "h1") (fun _ => "h2") none
        ⟨Except.ok [okEntry "a.bin", badEntry "x.bin", okEntry "b.bin"]⟩
        [] initialSyncer).err = none ∧
    (processVendor (fun _ => "h1") (fun _ => "h2") none
        ⟨Except.ok [okEntry "a.bin", badEntry "x.bin", okEntry "b.bin"]⟩
        [] initialSyncer).processed = 2 := by
  have h := processVendor_entry_isolation (fun _ => "h1") (fun _ => "h2")
    [] initialSyncer [okEntry "a.bin"] [okEntry "b.bin"] (badEntry "x.bin")
    StepFail.retrieveFail rfl (by decide) (by decide)
  exact ⟨h.1, by simpa using h.2.1⟩

/-! ## Lemmas about the componentMap -/

theorem lookupComp_eq_none_iff (m : List (String × Component)) (i : String) :
    lookupComp m i = none ↔ i ∉ m.map Prod.fst := by
  induction m with
  | nil => simp [lookupComp]
  | cons p rest ih =>
      obtain ⟨k, c⟩ := p
      by_cases h : k = i
      · subst h
        simp [lookupComp]
      · rw [List.map_cons, List.mem_cons]
        simp only [lookupComp, if_neg h, ih]
        constructor
        · intro hni hor
          rcases hor with he | hm
          · exact h he.symm
          · exact hni hm
        · intro hni hm
          exact hni (Or.inr hm)

theorem upsert_of_not_mem (m : List (String × Component)) (k : String)
    (c : Component) (h : k ∉ m.map Prod.fst) :
    upsert m k c = m ++ [(k, c)] := by
  induction m with
  | nil => rfl
  | cons p rest ih =>
      obtain ⟨k', c'⟩ := p
      simp only [List.map_cons, List.mem_cons] at h
      push_neg at h
      have hne : ¬ k' = k := fun he => h.1 he.symm
      simp [upsert, hne, ih h.2]

theorem mergeComponent_of_not_mem (m : List (String × Component))
    (c : Component) (h : c.id ∉ m.map Prod.fst) :
    mergeComponent m c = m ++ [(c.id, c)] := by
  induction m with
  | nil => rfl
  | cons p rest ih =>
      obtain ⟨k', c'⟩ := p
      simp only [List.map_cons, List.mem_cons] at h
      push_neg at h
      have hne : ¬ k' = c.id := fun he => h.1 he.symm
      simp [mergeComponent, hne, ih h.2]

theorem lookupComp_mergeComponent_self (m : List (String × Component))
    (c c' : Component) (h : lookupComp m c.id = some c') :
    lookupComp (mergeComponent m c) c.id =
      some { c' with releases := c'.releases ++ c.releases } := by
  induction m with
  | nil => simp [lookupComp] at h
  | cons p rest ih =>
      obtain ⟨k, c0⟩ := p
      by_cases hk : k = c.id
      · simp only [lookupComp, if_pos hk, Option.some.injEq] at h
        subst h
        simp [mergeComponent, if_pos hk, lookupComp, hk]
      · simp only [lookupComp, if_neg hk] at h
        simp [mergeComponent, if_neg hk, lookupComp, hk, ih h]

theorem lookupComp_append_self (m : List (String × Component)) (k : String)
    (c : Component) (h : k ∉ m.map Prod.fst) :
    lookupComp (m ++ [(k, c)]) k = some c := by
  induction m with
  | nil => simp [lookupComp]
  | cons p rest ih =>
      obtain ⟨k0, c0⟩ := p
      simp only [List.map_cons, List.mem_cons] at h
      push_neg at h
      have hne : ¬ k0 = k := fun he => h.1 he.symm
      simp [lookupComp, hne, ih h.2]

theorem lookupComp_mergeComponent_none (m : List (String × Component))
    (c : Component) (h : lookupComp m c.id = none) :
    lookupComp (mergeComponent m c) c.id = some c := by
  have hnm := (lookupComp_eq_none_iff m c.id).mp h
  rw [mergeComponent_of_not_mem m c hnm]
  exact lookupComp_append_self m c.id c hnm

theorem lookupComp_mergeComponent_ne (m : List (String × Component))
    (c : Component) (i : String) (h : i ≠ c.id) :
    lookupComp (mergeComponent m c) i = lookupComp m i := by
  induction m with
  | nil =>
      have hne : ¬ c.id = i := fun he => h he.symm
      simp [mergeComponent, lookupComp, hne]
  | cons p rest ih =>
      obtain ⟨k, c0⟩ := p
      by_cases hk : k = c.id
      · have hne : ¬ k = i := fun he => h (he ▸ hk)
        simp [mergeComponent, if_pos hk, lookupComp, hne]
      · simp only [mergeComponent, if_neg hk]
        by_cases hki : k = i
        · simp [lookupComp, hki]
        · simp [lookupComp, hki, ih]

theorem lookupComp_upsert_self (m : List (String × Component)) (k : String)
    (c : Component) : lookupComp (upsert m k c) k = some c := by
  induction m with
  | nil => simp [upsert, lookupComp]
  | cons p rest ih =>
      obtain ⟨k', c'⟩ := p
      by_cases hk : k' = k
      · simp [upsert, hk, lookupComp]
      · simp [upsert, hk, lookupComp, ih]

theorem lookupComp_upsert_ne (m : List (String × Component)) (k : String)
    (c : Component) (i : String) (h : i ≠ k) :
    lookupComp (upsert m k c) i = lookupComp m i := by
  induction m with
  | nil =>
      have hne : ¬ k = i := fun he => h he.symm
      simp [upsert, lookupComp, hne]
  | cons p rest ih =>
      obtain ⟨k', c'⟩ := p
      by_cases hk : k' = k
      · have hne : ¬ k = i := fun he => h he.symm
        have hne' : ¬ k' = i := fun he => hne (hk ▸ he)
        simp [upsert, if_pos hk, lookupComp, hne, hne']
      · simp only [upsert, if_neg hk]
        by_cases hki : k' = i
        · simp [lookupComp, hki]
        · simp [lookupComp, hki, ih]

theorem mem_keys_upsert (m : List (String × Component)) (k : String)
    (c : Component) (i : String) :
    i ∈ (upsert m k c).map Prod.fst ↔ i ∈ m.map Prod.fst ∨ i = k := by
  induction m with
  | nil => simp [upsert]
  | cons p rest ih =>
      obtain ⟨k', c'⟩ := p
      by_cases hk : k' = k
      · subst hk
        simp [upsert]
        tauto
      · simp [upsert, hk, ih]
        tauto

theorem mem_keys_mergeComponent (m : List (String × Component))
    (c : Component) (i : String) :
    i ∈ (mergeComponent m c).map Prod.fst ↔
      i ∈ m.map Prod.fst ∨ i = c.id := by
  induction m with
  | nil => simp [mergeComponent]
  | cons p rest ih =>
      obtain ⟨k', c'⟩ := p
      by_cases hk : k' = c.id
      · subst hk
        simp [mergeComponent]
        tauto
      · simp [mergeComponent, hk, ih]
        tauto

theorem nodup_keys_upsert (m : List (String × Component)) (k : String)
    (c : Component) (h : (m.map Prod.fst).Nodup) :
    ((upsert m k c).map Prod.fst).Nodup := by
  induction m with
  | nil => simp [upsert]
  | cons p rest ih =>
      obtain ⟨k', c'⟩ := p
      simp only [List.map_cons, List.nodup_cons] at h
      obtain ⟨hk', hrest⟩ := h
      by_cases hk : k' = k
      · simp only [upsert, if_pos hk, List.map_cons, List.nodup_cons]
        exact ⟨hk ▸ hk', hrest⟩
      · simp only [upsert, if_neg hk, List.map_cons, List.nodup_cons]
        refine ⟨?_, ih hrest⟩
        intro hmem
        rcases (mem_keys_upsert rest k c k').mp hmem with h | h
        · exact hk' h
        · exact hk h

theorem nodup_keys_mergeComponent (m : List (String × Component))
    (c : Component) (h : (m.map Prod.fst).Nodup) :
    ((mergeComponent m c).map Prod.fst).Nodup := by
  induction m with
  | nil => simp [mergeComponent]
  | cons p rest ih =>
      obtain ⟨k', c'⟩ := p
      simp only [List.map_cons, List.nodup_cons] at h
      obtain ⟨hk', hrest⟩ := h
      by_cases hk : k' = c.id
      · simp only [mergeComponent, if_pos hk, List.map_cons, List.nodup_cons]
        exact ⟨hk', hrest⟩
      · simp only [mergeComponent, if_neg hk, List.map_cons, List.nodup_cons]
        refine ⟨?_, ih hrest⟩
        intro hmem
        rcases (mem_keys_mergeComponent rest c k').mp hmem with h | h
        · exact hk' h
        · exact hk h

theorem mem_keys_seed (l : List Component) :
    ∀ init : List (String × Component), ∀ i : String,
      i ∈ ((l.foldl (fun m c => upsert m c.id c) init).map Prod.fst) ↔
        i ∈ init.map Prod.fst ∨ i ∈ l.map Component.id := by
  induction l with
  | nil => intro init i; simp
  | cons c rest ih =>
      intro init i
      simp only [List.foldl_cons, ih, mem_keys_upsert, List.map_cons,
        List.mem_cons]
      tauto

theorem nodup_keys_seed (l : List Component) :
    ∀ init : List (String × Component), (init.map Prod.fst).Nodup →
      ((l.foldl (fun m c => upsert m c.id c) init).map Prod.fst).Nodup := by
  induction l with
  | nil => intro init h; exact h
  | cons c rest ih =>
      intro init h
      exact ih _ (nodup_keys_upsert init c.id c h)

theorem mem_keys_mergeFold (pending : List Component) :
    ∀ init : List (String × Component), ∀ i : String,
      i ∈ ((pending.foldl mergeComponent init).map Prod.fst) ↔
        i ∈ init.map Prod.fst ∨ i ∈ pending.map Component.id := by
  induction pending with
  | nil => intro init i; simp
  | cons c rest ih =>
      intro init i
      simp only [List.foldl_cons, ih, mem_keys_mergeComponent, List.map_cons,
        List.mem_cons]
      tauto

theorem nodup_keys_mergeFold (pending : List Component) :
    ∀ init : List (String × Component), (init.map Prod.fst).Nodup →
      ((pending.foldl mergeComponent init).map Prod.fst).Nodup := by
  induction pending with
  | nil => intro init h; exact h
  | cons c rest ih =>
      intro init h
      exact ih _ (nodup_keys_mergeComponent init c h)

/-- The keys of `SaveMetadata`'s componentMap are pairwise distinct: the
output document never contains two entries for one component identity. -/
theorem buildComponentMap_keys_nodup (ex : Option Components)
    (pending : List Component) :
    ((buildComponentMap ex pending).map Prod.fst).Nodup := by
  apply nodup_keys_mergeFold
  cases ex with
  | none => simp
  | some doc => exact nodup_keys_seed doc.component [] (by simp)

theorem mem_keys_buildComponentMap (ex : Option Components)
    (pending : List Component) (i : String) :
    i ∈ (buildComponentMap ex pending).map Prod.fst ↔
      (∃ doc, ex = some doc ∧ i ∈ doc.component.map Component.id) ∨
        i ∈ pending.map Component.id := by
  cases ex with
  | none =>
      simp only [buildComponentMap]
      rw [mem_keys_mergeFold]
      simp
  | some doc =>
      simp only [buildComponentMap]
      rw [mem_keys_mergeFold, mem_keys_seed]
      simp

theorem buildComponentMap_fst_eq_id (ex : Option Components)
    (pending : List Component) :
    ∀ p ∈ buildComponentMap ex pending, p.1 = p.2.id := by
  have hseed : ∀ l : List Component, ∀ init : List (String × Component),
      (∀ p ∈ init, p.1 = p.2.id) →
      ∀ p ∈ l.foldl (fun m c => upsert m c.id c) init, p.1 = p.2.id := by
    intro l
    induction l with
    | nil => intro init h; exact h
    | cons c rest ih =>
        intro init h
        apply ih
        intro p hp
        have hup : ∀ m : List (String × Component), (∀ q ∈ m, q.1 = q.2.id) →
            ∀ q ∈ upsert m c.id c, q.1 = q.2.id := by
          intro m
          induction m with
          | nil =>
              intro _ q hq
              simp [upsert] at hq
              subst hq
              rfl
          | cons p0 rest0 ih0 =>
              intro hm q hq
              obtain ⟨k0, c0⟩ := p0
              by_cases hk : k0 = c.id
              · simp only [upsert, if_pos hk] at hq
                rcases List.mem_cons.mp hq with h' | h'
                · subst h'; rfl
                · exact hm _ (List.mem_cons_of_mem _ h')
              · simp only [upsert, if_neg hk] at hq
                rcases List.mem_cons.mp hq with h' | h'
                · subst h'
                  exact hm ⟨k0, c0⟩ (List.mem_cons_self _ _)
                · exact ih0 (fun q' hq' => hm q' (List.mem_cons_of_mem _ hq')) q h'
        exact hup init h p hp
  have hmerge : ∀ l : List Component, ∀ init : List (String × Component),
      (∀ p ∈ init, p.1 = p.2.id) →
      ∀ p ∈ l.foldl mergeComponent init, p.1 = p.2.id := by
    intro l
    induction l with
    | nil => intro init h; exact h
    | cons c rest ih =>
        intro init h
        apply ih
        have hm1 : ∀ m : List (String × Component), (∀ q ∈ m, q.1 = q.2.id) →
            ∀ q ∈ mergeComponent m c, q.1 = q.2.id := by
          intro m
          induction m with
          | nil =>
              intro _ q hq
              simp [mergeComponent] at hq
              subst hq
              rfl
          | cons p0 rest0 ih0 =>
              intro hm q hq
              obtain ⟨k0, c0⟩ := p0
              by_cases hk : k0 = c.id
              · simp only [mergeComponent, if_pos hk] at hq
                rcases List.mem_cons.mp hq with h' | h'
                · subst h'
                  exact hm ⟨k0, c0⟩ (List.mem_cons_self _ _)
                · exact hm _ (List.mem_cons_of_mem _ h')
              · simp only [mergeComponent, if_neg hk] at hq
                rcases List.mem_cons.mp hq with h' | h'
                · subst h'
                  exact hm ⟨k0, c0⟩ (List.mem_cons_self _ _)
                · exact ih0 (fun q' hq' => hm q' (List.mem_cons_of_mem _ hq')) q h'
        exact hm1 init h
  intro p hp
  apply hmerge pending _ _ p hp
  cases ex with
  | none => simp
  | some doc => exact hseed doc.component [] (by simp)

theorem lookupComp_seed_not_mem (l : List Component) :
    ∀ init : List (String × Component), ∀ i : String,
      i ∉ l.map Component.id →
      lookupComp (l.foldl (fun m c => upsert m c.id c) init) i =
        lookupComp init i := by
  induction l with
  | nil => intro init i _; rfl
  | cons c rest ih =>
      intro init i h
      simp only [List.map_cons, List.mem_cons] at h
      push_neg at h
      rw [List.foldl_cons, ih _ _ h.2, lookupComp_upsert_ne _ _ _ _ h.1]

theorem lookupComp_seed_mem (l : List Component) :
    ∀ init : List (String × Component), (l.map Component.id).Nodup →
      ∀ c1 ∈ l,
        lookupComp (l.foldl (fun m c => upsert m c.id c) init) c1.id =
          some c1 := by
  induction l with
  | nil => intro init _ c1 h; simp at h
  | cons c rest ih =>
      intro init hn c1 hc1
      simp only [List.map_cons, List.nodup_cons] at hn
      rcases List.mem_cons.mp hc1 with rfl | hm
      · rw [List.foldl_cons, lookupComp_seed_not_mem rest _ _ hn.1,
          lookupComp_upsert_self]
      · exact ih _ hn.2 c1 hm

theorem lookupComp_mem (m : List (String × Component)) (i : String)
    (c : Component) (h : lookupComp m i = some c) : (i, c) ∈ m := by
  induction m with
  | nil => simp [lookupComp] at h
  | cons p rest ih =>
      obtain ⟨k, c0⟩ := p
      by_cases hk : k = i
      · simp only [lookupComp, if_pos hk, Option.some.injEq] at h
        subst hk
        subst h
        exact List.mem_cons_self _ _
      · simp only [lookupComp, if_neg hk] at h
        exact List.mem_cons_of_mem _ (ih h)

theorem eq_of_mem_keys_nodup (m : List (String × Component))
    (h : (m.map Prod.fst).Nodup) (p q : String × Component)
    (hp : p ∈ m) (hq : q ∈ m) (hk : p.1 = q.1) : p = q := by
  induction m with
  | nil => simp at hp
  | cons hd rest ih =>
      simp only [List.map_cons, List.nodup_cons] at h
      rcases List.mem_cons.mp hp with rfl | hp'
      · rcases List.mem_cons.mp hq with rfl | hq'
        · rfl
        · exact absurd (hk ▸ List.mem_map_of_mem Prod.fst hq') h.1
      · rcases List.mem_cons.mp hq with rfl | hq'
        · exact absurd (hk ▸ List.mem_map_of_mem Prod.fst hp') h.1
      -- the remaining case is handled below
        · exact ih h.2 hp' hq'

theorem finalizeComponent_id (c : Component) :
    (finalizeComponent c).id = c.id := rfl

/-! ## C1: merge monotonicity -/

/-- C1 counterexample: with a published component of identity
`com.example.x` whose single release has checksum filename `a.bin`, and a
pending component of the same identity whose single release has the same
checksum filename, the merged component holds that release key twice —
`SaveMetadata` performs a plain append with no dedupe by checksum
filename, contradicting "no Release duplicated". -/
theorem saveMetadata_merge_no_dedup_cex :
    c1MergedKeys = [some "a.bin", some "a.bin"] ∧
    ¬ c1MergedKeys.Nodup := by
  constructor
  · decide
  · decide

/-- C1 (amended): when `SaveMetadata` merges a pending component whose
identity already exists in the published mapping, the merged component's
release list is exactly the published releases followed by the pending
releases — no release is lost; and *provided* the two sides' checksum
filenames are disjoint (which holds for pending components produced by a
run, since the skip invariant keeps published filenames from being
reprocessed) and each side is duplicate-free, the merged release set is
the disjoint union — no release duplicated — where releases are identified
by the filename of their first checksum. Without the disjointness premise
the code appends without dedupe. -/
theorem saveMetadata_merge_union (s : SyncerState) (doc : Components)
    (c1 c2 : Component)
    (hmeta : s.existingMetadata = some doc)
    (hpend : s.newComponents = [c2])
    (hnodup : (doc.component.map Component.id).Nodup)
    (hc1 : c1 ∈ doc.component) (hid : c2.id = c1.id)
    (hnd1 : (c1.releases.map releaseKey).Nodup)
    (hnd2 : (c2.releases.map releaseKey).Nodup)
    (hdisj : ∀ k, k ∈ c1.releases.map releaseKey →
      k ∉ c2.releases.map releaseKey) :
    lookupComp (buildComponentMap s.existingMetadata s.newComponents) c1.id =
      some { c1 with releases := c1.releases ++ c2.releases } ∧
    ((c1.releases ++ c2.releases).map releaseKey).Nodup ∧
    (∀ k, k ∈ (c1.releases ++ c2.releases).map releaseKey ↔
      k ∈ c1.releases.map releaseKey ∨ k ∈ c2.releases.map releaseKey) := by
  refine ⟨?_, ?_, ?_⟩
  · rw [hmeta, hpend]
    simp only [buildComponentMap, List.foldl_cons, List.foldl_nil]
    have hseed : lookupComp
        (doc.component.foldl (fun m c => upsert m c.id c) []) c2.id =
          some c1 := by
      rw [hid]
      exact lookupComp_seed_mem doc.component [] hnodup c1 hc1
    have hlook := lookupComp_mergeComponent_self _ c2 c1 hseed
    rw [hid] at hlook
    exact hlook
  · rw [List.map_append]
    exact List.Nodup.append hnd1 hnd2 hdisj
  · intro k
    rw [List.map_append, List.mem_append]

theorem saveMetadata_merge_union_witness :
    lookupComp (buildComponentMap
        (some { origin := "firmirror",
                component := [plainComponent "com.example.x"
                  [{ version := "1", location := "",
                     checksums := [{ filename := "a.bin", target := "content",
                                     type := "sha1", value := "v" }] }]] })
        [plainComponent "com.example.x"
          [{ version := "2", location := "",
             checksums := [{ filename := "b.bin", target := "content",
                             type := "sha1", value := "w" }] }]])
        "com.example.x" =
      some (plainComponent "com.example.x"
        ([{ version := "1", location := "",
            checksums := [{ filename := "a.bin", target := "content",
                            type := "sha1", value := "v" }] }] ++
         [{ version := "2", location := "",
            checksums := [{ filename := "b.bin", target := "content",
                            type := "sha1", value := "w" }] }])) ∧
    (([{ version := "1", location := "",
         checksums := [{ filename := "a.bin", target := "content",
                         type := "sha1", value := "v" }] }] ++
      [{ version := "2", location := "",
         checksums := [{ filename := "b.bin", target := "content",
                         type := "sha1", value := "w" }] }] : List Release).map
        releaseKey).Nodup := by
  have h := saveMetadata_merge_union
    { existingMetadata :=
        some { origin := "firmirror",
               component := [plainComponent "com.example.x"
                 [{ version := "1", location := "",
                    checksums := [{ filename := "a.bin", target := "content",
                                    type := "sha1", value := "v" }] }]] },
      existingIndex := [],
      newComponents :=
        [plainComponent "com.example.x"
          [{ version := "2", location := "",
             checksums := [{ filename := "b.bin", target := "content",
                             type := "sha1", value := "w" }] }]] }
    { origin := "firmirror",
      component := [plainComponent "com.example.x"
        [{ version := "1", location := "",
           checksums := [{ filename := "a.bin", target := "content",
                           type := "sha1", value := "v" }] }]] }
    (plainComponent "com.example.x"
      [{ version := "1", location := "",
         checksums := [{ filename := "a.bin", target := "content",
                         type := "sha1", value := "v" }] }])
    (plainComponent "com.example.x"
      [{ version := "2", location := "",
         checksums := [{ filename := "b.bin", target := "content",
                         type := "sha1", value := "w" }] }])
    rfl rfl (by decide) (by decide) rfl (by decide) (by decide) (by decide)
  exact ⟨h.1, h.2.1⟩

/-! ## C9: serialization order -/

/-- C9 counterexample: the identity reordering and the reversal are both
admissible iteration orders of the componentMap (each yields a permutation
of the entries, as Go's unspecified map iteration does), yet on the same
syncer state they produce different stored metadata objects, and the
reversed run's component sequence is not sorted by identity — so two
invocations on equal syncer states need not produce an identical sequence
of Component elements. -/
theorem saveMetadata_order_dependent_cex :
    ((fun l : List (String × Component) => l) c9Map).Perm c9Map ∧
    (List.reverse c9Map).Perm c9Map ∧
    (saveMetadata (fun l => l) [] c9State).1.find metadataKey ≠
      (saveMetadata List.reverse [] c9State).1.find metadataKey ∧
    ((saveMetadata List.reverse [] c9State).1.find metadataKey =
      some (Obj.metadata
        { origin := "firmirror",
          component := (c9Map.reverse).map (fun p => finalizeComponent p.2) })) := by
  refine ⟨List.Perm.refl _, by decide, by decide, by decide⟩

/-- C9 (amended): `SaveMetadata` is deterministic only up to ordering —
for any two admissible map iteration orders and equal syncer states, the
two emitted documents carry the same origin and component *multisets*
(each a permutation of the other), but the component sequence follows the
runtime's map iteration order and is not sorted by identity. -/
theorem saveMetadata_deterministic_up_to_order
    (iter1 iter2 : List (String × Component) → List (String × Component))
    (h1 : ∀ l, (iter1 l).Perm l) (h2 : ∀ l, (iter2 l).Perm l)
    (storage1 storage2 : Storage) (s : SyncerState)
    (doc1 doc2 : Components)
    (hne : s.newComponents ≠ [])
    (hd1 : (saveMetadata iter1 storage1 s).1.find metadataKey =
      some (Obj.metadata doc1))
    (hd2 : (saveMetadata iter2 storage2 s).1.find metadataKey =
      some (Obj.metadata doc2)) :
    doc1.origin = doc2.origin ∧ doc1.component.Perm doc2.component := by
  rw [saveMetadata_find iter1 storage1 s hne] at hd1
  rw [saveMetadata_find iter2 storage2 s hne] at hd2
  obtain hdoc1 := Obj.metadata.inj (Option.some.inj hd1)
  obtain hdoc2 := Obj.metadata.inj (Option.some.inj hd2)
  subst hdoc1
  subst hdoc2
  refine ⟨rfl, ?_⟩
  exact ((h1 _).map _).trans (((h2 _).map _).symm)

theorem saveMetadata_deterministic_up_to_order_witness :
    c9Doc.origin = c9Doc.origin ∧ c9Doc.component.Perm c9Doc.component :=
  saveMetadata_deterministic_up_to_order (fun l => l) (fun l => l)
    (fun l => List.Perm.refl l) (fun l => List.Perm.refl l) [] [] c9State
    c9Doc c9Doc (by decide) (by decide) (by decide)

/-! ## C10: merge within a single run -/

theorem buildComponentMap_eq_foldl (ex : Option Components)
    (pending : List Component) :
    buildComponentMap ex pending =
      pending.foldl mergeComponent (buildComponentMap ex []) := rfl

/-- C10: `SaveMetadata`'s merge also applies between pending components of
one run: when the pending list is `[c1, c2]` with `c2.id = c1.id` and that
identity is not previously published, the emitted document contains
exactly one component of that identity, whose releases are `c1`'s followed
by `c2`'s (after location derivation); and in general the document has
exactly one component element per distinct identity across the published
document and the pending list (identity list duplicate-free, containing
exactly the published and pending identities). -/
theorem saveMetadata_pending_merge
    (iter : List (String × Component) → List (String × Component))
    (hiter : ∀ l, (iter l).Perm l)
    (storage : Storage) (s : SyncerState) (c1 c2 : Component)
    (doc : Components)
    (hpend : s.newComponents = [c1, c2]) (hid : c2.id = c1.id)
    (hnotpub : ∀ d, s.existingMetadata = some d →
      c1.id ∉ d.component.map Component.id)
    (hdoc : (saveMetadata iter storage s).1.find metadataKey =
      some (Obj.metadata doc)) :
    (doc.component.map Component.id).Nodup ∧
    (∀ i, i ∈ doc.component.map Component.id ↔
      (∃ d, s.existingMetadata = some d ∧ i ∈ d.component.map Component.id) ∨
        i ∈ s.newComponents.map Component.id) ∧
    (∃ c, c ∈ doc.component ∧ c.id = c1.id ∧
      c.releases = (c1.releases ++ c2.releases).map fixLocation ∧
      ∀ c' ∈ doc.component, c'.id = c1.id → c' = c) := by
  have hne : s.newComponents ≠ [] := by rw [hpend]; simp
  rw [saveMetadata_find iter storage s hne] at hdoc
  obtain hdoc := Obj.metadata.inj (Option.some.inj hdoc)
  subst hdoc
  have hkeysnd := buildComponentMap_keys_nodup s.existingMetadata s.newComponents
  have hfst := buildComponentMap_fst_eq_id s.existingMetadata s.newComponents
  have hids : ((iter (buildComponentMap s.existingMetadata s.newComponents)).map
      (fun p => finalizeComponent p.2)).map Component.id =
      (iter (buildComponentMap s.existingMetadata s.newComponents)).map
        Prod.fst := by
    rw [List.map_map]
    apply List.map_congr_left
    intro p hp
    exact (hfst p (((hiter _).mem_iff).mp hp)).symm
  have hseedlook :
      lookupComp (buildComponentMap s.existingMetadata []) c1.id = none := by
    apply (lookupComp_eq_none_iff _ _).mpr
    rw [mem_keys_buildComponentMap]
    rintro (⟨d, hd, hmem⟩ | hmem)
    · exact hnotpub d hd hmem
    · simp at hmem
  have hmlook : lookupComp (buildComponentMap s.existingMetadata
      s.newComponents) c1.id =
      some { c1 with releases := c1.releases ++ c2.releases } := by
    rw [hpend, buildComponentMap_eq_foldl, List.foldl_cons, List.foldl_cons,
      List.foldl_nil]
    have h1 := lookupComp_mergeComponent_none _ c1 hseedlook
    have h2 : lookupComp (mergeComponent (buildComponentMap s.existingMetadata
        []) c1) c2.id = some c1 := by rw [hid]; exact h1
    have h3 := lookupComp_mergeComponent_self _ c2 c1 h2
    rw [hid] at h3
    exact h3
  refine ⟨?_, ?_, ?_⟩
  · rw [hids]
    exact (((hiter _).map Prod.fst).nodup_iff).mpr hkeysnd
  · intro i
    rw [hids, ((hiter _).map Prod.fst).mem_iff, mem_keys_buildComponentMap]
  · refine ⟨finalizeComponent
      { c1 with releases := c1.releases ++ c2.releases }, ?_, rfl, rfl, ?_⟩
    · exact List.mem_map_of_mem _
        (((hiter _).mem_iff).mpr (lookupComp_mem _ _ _ hmlook))
    · intro c' hc' hcid
      obtain ⟨p', hp', rfl⟩ := List.mem_map.mp hc'
      have hp'm := ((hiter _).mem_iff).mp hp'
      have hpk : p'.1 = c1.id := by
        rw [hfst p' hp'm]
        exact hcid
      have := eq_of_mem_keys_nodup _ hkeysnd p'
        (c1.id, { c1 with releases := c1.releases ++ c2.releases }) hp'm
        (lookupComp_mem _ _ _ hmlook) hpk
      rw [this]

theorem saveMetadata_pending_merge_witness :
    (c10Doc.component.map Component.id).Nodup ∧
    c10Doc.component.map Component.id = ["com.example.a"] := by
  have h := saveMetadata_pending_merge (fun l => l) (fun l => List.Perm.refl l)
    [] c10State c10c1 c10c2 c10Doc rfl rfl
    (by rintro d hd; cases hd) (by decide)
  exact ⟨h.1, by decide⟩

/-! ## Lemmas about membership-index filenames -/

theorem releasesFilenames_cons (r : Release) (rest : List Release) :
    releasesFilenames (r :: rest) =
      releaseFilenames r ++ releasesFilenames rest := rfl

theorem mapFilenames_cons (p : String × Component)
    (m : List (String × Component)) :
    mapFilenames (p :: m) = componentFilenames p.2 ++ mapFilenames m := rfl

theorem checksumIndex_componentFilenames (doc : Components) :
    checksumIndex doc =
      doc.component.foldr (fun c acc => componentFilenames c ++ acc) [] := rfl

theorem mem_releasesFilenames (fw : String) (rels : List Release) :
    fw ∈ releasesFilenames rels ↔ ∃ r ∈ rels, fw ∈ releaseFilenames r := by
  induction rels with
  | nil => simp [releasesFilenames]
  | cons r rest ih =>
      rw [releasesFilenames_cons, List.mem_append, ih]
      constructor
      · rintro (h | ⟨r', hr', h⟩)
        · exact ⟨r, List.mem_cons_self r rest, h⟩
        · exact ⟨r', List.mem_cons_of_mem r hr', h⟩
      · rintro ⟨r', hr', h⟩
        rcases List.mem_cons.mp hr' with rfl | hr'
        · exact Or.inl h
        · exact Or.inr ⟨r', hr', h⟩

theorem releasesFilenames_append (a b : List Release) :
    releasesFilenames (a ++ b) =
      releasesFilenames a ++ releasesFilenames b := by
  induction a with
  | nil => simp [releasesFilenames]
  | cons r rest ih =>
      rw [List.cons_append, releasesFilenames_cons, releasesFilenames_cons,
        ih, List.append_assoc]

theorem mem_mapFilenames (fw : String) (m : List (String × Component)) :
    fw ∈ mapFilenames m ↔ ∃ p ∈ m, fw ∈ componentFilenames p.2 := by
  induction m with
  | nil => simp [mapFilenames]
  | cons p rest ih =>
      rw [mapFilenames_cons, List.mem_append, ih]
      constructor
      · rintro (h | ⟨q, hq, h⟩)
        · exact ⟨p, List.mem_cons_self p rest, h⟩
        · exact ⟨q, List.mem_cons_of_mem p hq, h⟩
      · rintro ⟨q, hq, h⟩
        rcases List.mem_cons.mp hq with rfl | hq
        · exact Or.inl h
        · exact Or.inr ⟨q, hq, h⟩

theorem mem_checksumIndex (fw : String) (doc : Components) :
    fw ∈ checksumIndex doc ↔
      ∃ c ∈ doc.component, fw ∈ componentFilenames c := by
  rw [checksumIndex_componentFilenames]
  induction doc.component with
  | nil => simp
  | cons c rest ih =>
      rw [List.foldr_cons, List.mem_append, ih]
      constructor
      · rintro (h | ⟨c', hc', h⟩)
        · exact ⟨c, List.mem_cons_self c rest, h⟩
        · exact ⟨c', List.mem_cons_of_mem c hc', h⟩
      · rintro ⟨c', hc', h⟩
        rcases List.mem_cons.mp hc' with rfl | hc'
        · exact Or.inl h
        · exact Or.inr ⟨c', hc', h⟩

theorem componentFilenames_merge_releases (c0 c : Component) :
    componentFilenames { c0 with releases := c0.releases ++ c.releases } =
      componentFilenames c0 ++ componentFilenames c := by
  simp [componentFilenames, releasesFilenames_append]

theorem mem_mapFilenames_mergeComponent (fw : String)
    (m : List (String × Component)) (c : Component) :
    fw ∈ mapFilenames (mergeComponent m c) ↔
      fw ∈ mapFilenames m ∨ fw ∈ componentFilenames c := by
  induction m with
  | nil =>
      rw [mergeComponent, mapFilenames_cons]
      simp [mapFilenames]
  | cons p rest ih =>
      obtain ⟨k, c0⟩ := p
      by_cases hk : k = c.id
      · rw [mergeComponent, if_pos hk, mapFilenames_cons, mapFilenames_cons,
          componentFilenames_merge_releases]
        simp only [List.mem_append]
        tauto
      · rw [mergeComponent, if_neg hk, mapFilenames_cons, mapFilenames_cons]
        simp only [List.mem_append, ih]
        tauto

theorem mem_mapFilenames_mergeFold (fw : String) (pending : List Component) :
    ∀ init : List (String × Component),
      fw ∈ mapFilenames (pending.foldl mergeComponent init) ↔
        fw ∈ mapFilenames init ∨ ∃ c ∈ pending, fw ∈ componentFilenames c := by
  induction pending with
  | nil => intro init; simp
  | cons c rest ih =>
      intro init
      rw [List.foldl_cons, ih, mem_mapFilenames_mergeComponent]
      constructor
      · rintro ((h | h) | ⟨c', hc', h⟩)
        · exact Or.inl h
        · exact Or.inr ⟨c, List.mem_cons_self c rest, h⟩
        · exact Or.inr ⟨c', List.mem_cons_of_mem c hc', h⟩
      · rintro (h | ⟨c', hc', h⟩)
        · exact Or.inl (Or.inl h)
        · rcases List.mem_cons.mp hc' with rfl | hc'
          · exact Or.inl (Or.inr h)
          · exact Or.inr ⟨c', hc', h⟩

theorem seed_eq_of_nodup (l : List Component) :
    ∀ init : List (String × Component),
      (l.map Component.id).Nodup →
      (∀ c ∈ l, c.id ∉ init.map Prod.fst) →
      l.foldl (fun m c => upsert m c.id c) init =
        init ++ l.map (fun c => (c.id, c)) := by
  induction l with
  | nil => intro init _ _; simp
  | cons c rest ih =>
      intro init hn hdisj
      simp only [List.map_cons, List.nodup_cons] at hn
      rw [List.foldl_cons,
        upsert_of_not_mem init c.id c (hdisj c (List.mem_cons_self c rest)),
        ih _ hn.2]
      · simp
      · intro c' hc'
        rw [List.map_append, List.mem_append]
        rintro (h | h)
        · exact hdisj c' (List.mem_cons_of_mem c hc') h
        · simp only [List.map_cons, List.map_nil, List.mem_singleton] at h
          exact hn.1 (h ▸ List.mem_map_of_mem Component.id hc')

theorem mem_mapFilenames_seed (fw : String) (l : List Component)
    (hn : (l.map Component.id).Nodup) :
    fw ∈ mapFilenames (l.foldl (fun m c => upsert m c.id c) []) ↔
      ∃ c ∈ l, fw ∈ componentFilenames c := by
  rw [seed_eq_of_nodup l [] hn (by simp), List.nil_append, mem_mapFilenames]
  constructor
  · rintro ⟨p, hp, hfw⟩
    obtain ⟨c, hc, rfl⟩ := List.mem_map.mp hp
    exact ⟨c, hc, hfw⟩
  · rintro ⟨c, hc, hfw⟩
    exact ⟨(c.id, c), List.mem_map_of_mem _ hc, hfw⟩

/-- The location-derivation step never changes a release's checksums. -/
theorem fixLocation_checksums (r : Release) :
    (fixLocation r).checksums = r.checksums := by
  cases hcs : r.checksums with
  | nil => simp [fixLocation, hcs]
  | cons c rest =>
      by_cases hloc : r.location = ""
      · simp [fixLocation, hcs, hloc]
      · simp [fixLocation, hcs, hloc]

theorem releaseFilenames_fixLocation (r : Release) :
    releaseFilenames (fixLocation r) = releaseFilenames r := by
  rw [releaseFilenames, releaseFilenames, fixLocation_checksums]

theorem componentFilenames_finalize (c : Component) :
    componentFilenames (finalizeComponent c) = componentFilenames c := by
  simp only [componentFilenames, finalizeComponent]
  induction c.releases with
  | nil => rfl
  | cons r rest ih =>
      rw [List.map_cons, releasesFilenames_cons, releasesFilenames_cons,
        releaseFilenames_fixLocation, ih]

/-- Membership in the index rebuilt from a document `SaveMetadata` emitted
is exactly membership in the componentMap's filenames, for any admissible
iteration order. -/
theorem mem_checksumIndex_saved (iter : List (String × Component) →
      List (String × Component))
    (hiter : ∀ l, (iter l).Perm l) (m : List (String × Component))
    (fw : String) :
    fw ∈ checksumIndex
        { origin := "firmirror",
          component := (iter m).map (fun p => finalizeComponent p.2) } ↔
      fw ∈ mapFilenames m := by
  rw [mem_checksumIndex, mem_mapFilenames]
  constructor
  · rintro ⟨c, hc, hfw⟩
    obtain ⟨p, hp, rfl⟩ := List.mem_map.mp hc
    rw [componentFilenames_finalize] at hfw
    exact ⟨p, ((hiter m).mem_iff).mp hp, hfw⟩
  · rintro ⟨p, hp, hfw⟩
    refine ⟨finalizeComponent p.2,
      List.mem_map_of_mem _ (((hiter m).mem_iff).mpr hp), ?_⟩
    rw [componentFilenames_finalize]
    exact hfw

/-- The filenames reachable in `SaveMetadata`'s merged componentMap are
exactly the published ones plus the pending ones (published document
assumed duplicate-free in identities, as any saved document is). -/
theorem mem_mapFilenames_buildComponentMap (ex : Option Components)
    (pending : List Component) (fw : String)
    (hnd : ∀ doc, ex = some doc → (doc.component.map Component.id).Nodup) :
    fw ∈ mapFilenames (buildComponentMap ex pending) ↔
      (∃ doc, ex = some doc ∧ fw ∈ checksumIndex doc) ∨
        ∃ c ∈ pending, fw ∈ componentFilenames c := by
  cases ex with
  | none =>
      simp only [buildComponentMap]
      rw [mem_mapFilenames_mergeFold]
      simp [mapFilenames]
  | some doc =>
      simp only [buildComponentMap]
      rw [mem_mapFilenames_mergeFold, mem_mapFilenames_seed fw doc.component
        (hnd doc rfl)]
      constructor
      · rintro (h | h)
        · exact Or.inl ⟨doc, rfl, (mem_checksumIndex fw doc).mpr h⟩
        · exact Or.inr h
      · rintro (⟨doc', hdoc', h⟩ | h)
        · obtain rfl : doc = doc' := Option.some.inj hdoc'
          exact Or.inl ((mem_checksumIndex fw doc).mp h)
        · exact Or.inr h

theorem attachURL_releases (c : Component) (u : String) :
    (attachURL c u).releases = c.releases := by
  rw [attachURL]
  by_cases h : u ≠ ""
  · simp [h]
  · simp [h]

/-- A successfully processed entry's component indexes its own firmware
filename: `buildPackage` stamps the filename into every release's
checksums, so a component with at least one release and a non-empty
filename reaches the membership index. -/
theorem filename_mem_processedComponent (sha1Fn sha256Fn : List Nat → String)
    (e : Entry) (hfn : e.filename ≠ "") (hrel : e.appstream.releases ≠ []) :
    e.filename ∈ componentFilenames (processedComponent sha1Fn sha256Fn e) := by
  have hr : (processedComponent sha1Fn sha256Fn e).releases =
      (attachURL e.appstream e.sourceURL).releases.map (fun r =>
        { r with checksums :=
            [{ filename := e.filename, target := "content",
               type := "sha1", value := sha1Fn e.blob },
             { filename := e.filename, target := "content",
               type := "sha256", value := sha256Fn e.blob }] }) := rfl
  rw [componentFilenames, hr, attachURL_releases]
  cases hcs : e.appstream.releases with
  | nil => exact absurd hcs hrel
  | cons r rest =>
      rw [List.map_cons, releasesFilenames_cons, List.mem_append]
      left
      simp [releaseFilenames, hfn]

/-- After a full first pass (load → process → save) in which every entry
succeeds when attempted, every catalog entry's filename is found in the
metadata document the run leaves in storage (when a document guarantee is
needed, i.e. for a non-empty catalog whose loaded state links back to the
stored object). -/
theorem run1_metadata_covers (sha1Fn sha256Fn : List Nat → String)
    (iter1 : List (String × Component) → List (String × Component))
    (hiter1 : ∀ l, (iter1 l).Perm l)
    (entries : List Entry) (storage0 : Storage) (s1 : SyncerState)
    (hs1new : s1.newComponents = [])
    (hI1 : ∀ fw, fw ∈ s1.existingIndex →
      ∃ doc0, s1.existingMetadata = some doc0 ∧ fw ∈ checksumIndex doc0)
    (hnd1 : ∀ doc, s1.existingMetadata = some doc →
      (doc.component.map Component.id).Nodup)
    (hstor : ∀ doc, s1.existingMetadata = some doc →
      storage0.find metadataKey = some (Obj.metadata doc))
    (hentries : ∀ e ∈ entries, e.outcome = none ∧ e.filename ≠ "" ∧
      e.appstream.releases ≠ []) :
    ∀ e ∈ entries, ∃ doc1,
      (saveMetadata iter1
          (processVendor sha1Fn sha256Fn none ⟨Except.ok entries⟩ storage0
            s1).storage
          (processVendor sha1Fn sha256Fn none ⟨Except.ok entries⟩ storage0
            s1).state).1.find metadataKey = some (Obj.metadata doc1) ∧
      e.filename ∈ checksumIndex doc1 := by
  intro e he
  have hmix := foldl_stepEntry_mixed sha1Fn sha256Fn s1.existingIndex entries
    (fun e' he' => (hentries e' he').1)
    { storage := storage0, pending := s1.newComponents, processed := 0,
      skipped := 0, trace := [] }
  simp only [loopObs, Prod.mk.injEq] at hmix
  obtain ⟨hσ, hp, _, _⟩ := hmix
  have hpend_eq : (entries.foldl (stepEntry sha1Fn sha256Fn s1.existingIndex)
      { storage := storage0, pending := s1.newComponents, processed := 0,
        skipped := 0, trace := [] }).pending =
      (entries.filter (fun e' => !(s1.existingIndex.contains e'.filename))).map
        (processedComponent sha1Fn sha256Fn) := by
    rw [hp, hs1new, List.nil_append]
  simp only [processVendor, processLoop_none_eq_foldl]
  by_cases hpend : (entries.filter
      (fun e' => !(s1.existingIndex.contains e'.filename))) = []
  · -- no entry was processed: every entry was already indexed and the
    -- save step is a no-op, leaving the loaded document in place
    have hem : e.filename ∈ s1.existingIndex := by
      by_contra hng
      have : e ∈ entries.filter
          (fun e' => !(s1.existingIndex.contains e'.filename)) := by
        rw [List.mem_filter]
        exact ⟨he, by simp [hng]⟩
      rw [hpend] at this
      simp at this
    obtain ⟨doc0, hdoc0, hfw0⟩ := hI1 e.filename hem
    refine ⟨doc0, ?_, hfw0⟩
    have hpend1 : ({ s1 with newComponents :=
        (entries.foldl (stepEntry sha1Fn sha256Fn s1.existingIndex)
          { storage := storage0, pending := s1.newComponents, processed := 0,
            skipped := 0, trace := [] }).pending } : SyncerState).newComponents
        = [] := by
      show (entries.foldl (stepEntry sha1Fn sha256Fn s1.existingIndex)
        { storage := storage0, pending := s1.newComponents, processed := 0,
          skipped := 0, trace := [] }).pending = []
      rw [hpend_eq, hpend]
      rfl
    rw [saveMetadata, if_pos hpend1]
    have hσ0 : (entries.foldl (stepEntry sha1Fn sha256Fn s1.existingIndex)
        { storage := storage0, pending := s1.newComponents, processed := 0,
          skipped := 0, trace := [] }).storage = storage0 := by
      rw [hσ, hpend]
      rfl
    rw [hσ0]
    exact hstor doc0 hdoc0
  · -- at least one entry was processed: the save step writes the merged
    -- document, which covers both the old index and the new filenames
    have hne1 : ({ s1 with newComponents :=
        (entries.foldl (stepEntry sha1Fn sha256Fn s1.existingIndex)
          { storage := storage0, pending := s1.newComponents, processed := 0,
            skipped := 0, trace := [] }).pending } : SyncerState).newComponents
        ≠ [] := by
      show (entries.foldl (stepEntry sha1Fn sha256Fn s1.existingIndex)
        { storage := storage0, pending := s1.newComponents, processed := 0,
          skipped := 0, trace := [] }).pending ≠ []
      rw [hpend_eq]
      intro hcon
      exact hpend (List.map_eq_nil_iff.mp hcon)
    refine ⟨_, saveMetadata_find iter1 _ _ hne1, ?_⟩
    rw [mem_checksumIndex_saved iter1 hiter1]
    rw [mem_mapFilenames_buildComponentMap _ _ _ hnd1]
    by_cases hem : e.filename ∈ s1.existingIndex
    · obtain ⟨doc0, hdoc0, hfw0⟩ := hI1 e.filename hem
      exact Or.inl ⟨doc0, hdoc0, hfw0⟩
    · right
      refine ⟨processedComponent sha1Fn sha256Fn e, ?_, ?_⟩
      · show processedComponent sha1Fn sha256Fn e ∈
          (entries.foldl (stepEntry sha1Fn sha256Fn s1.existingIndex)
            { storage := storage0, pending := s1.newComponents, processed := 0,
              skipped := 0, trace := [] }).pending
        rw [hpend_eq]
        apply List.mem_map_of_mem
        rw [List.mem_filter]
        exact ⟨he, by simp [hem]⟩
      · exact filename_mem_processedComponent sha1Fn sha256Fn e
          (hentries e he).2.1 (hentries e he).2.2

theorem loadMetadata_none_eq (storage : Storage) (s : SyncerState)
    (h : storage.find metadataKey = none) :
    loadMetadata storage s = Except.ok s := by
  simp [loadMetadata, h]

theorem loadMetadata_some_eq (storage : Storage) (s : SyncerState)
    (doc : Components)
    (h : storage.find metadataKey = some (Obj.metadata doc)) :
    loadMetadata storage s = Except.ok
      { s with existingMetadata := some doc,
               existingIndex := s.existingIndex ++ checksumIndex doc } := by
  simp [loadMetadata, h]

/-- A first pass that processes nothing (every entry already indexed)
leaves the storage backend untouched: no cabinets are written and the save
step is a no-op. -/
theorem run1_storage_noop (sha1Fn sha256Fn : List Nat → String)
    (iter1 : List (String × Component) → List (String × Component))
    (entries : List Entry) (storage0 : Storage) (s1 : SyncerState)
    (hs1new : s1.newComponents = [])
    (hok : ∀ e ∈ entries, e.outcome = none)
    (hpendP : entries.filter
      (fun e => !(s1.existingIndex.contains e.filename)) = []) :
    (saveMetadata iter1
        (processVendor sha1Fn sha256Fn none ⟨Except.ok entries⟩ storage0
          s1).storage
        (processVendor sha1Fn sha256Fn none ⟨Except.ok entries⟩ storage0
          s1).state).1 = storage0 := by
  have hmix := foldl_stepEntry_mixed sha1Fn sha256Fn s1.existingIndex entries
    hok
    { storage := storage0, pending := s1.newComponents, processed := 0,
      skipped := 0, trace := [] }
  simp only [loopObs, Prod.mk.injEq] at hmix
  obtain ⟨hσ, hp, _, _⟩ := hmix
  simp only [processVendor, processLoop_none_eq_foldl]
  have hpend1 : ({ s1 with newComponents :=
      (entries.foldl (stepEntry sha1Fn sha256Fn s1.existingIndex)
        { storage := storage0, pending := s1.newComponents, processed := 0,
          skipped := 0, trace := [] }).pending } : SyncerState).newComponents
      = [] := by
    show (entries.foldl (stepEntry sha1Fn sha256Fn s1.existingIndex)
      { storage := storage0, pending := s1.newComponents, processed := 0,
        skipped := 0, trace := [] }).pending = []
    rw [hp, hs1new, hpendP]
    rfl
  rw [saveMetadata, if_pos hpend1]
  rw [hσ, hpendP]
  rfl

/-- A sync pass over a catalog whose every filename is already in the
loaded membership index: all entries are skipped, nothing is processed or
accumulated, the save is a no-op and storage is unchanged. -/
theorem run2_result (sha1Fn sha256Fn : List Nat → String)
    (iter2 : List (String × Component) → List (String × Component))
    (entries : List Entry) (storageA : Storage) (s2 : SyncerState)
    (hok : ∀ e ∈ entries, e.outcome = none)
    (hload2 : loadMetadata storageA initialSyncer = Except.ok s2)
    (hs2new : s2.newComponents = [])
    (hcov : ∀ e ∈ entries, e.filename ∈ s2.existingIndex) :
    (runSync sha1Fn sha256Fn iter2 none ⟨Except.ok entries⟩ storageA).map
      (fun r2 => (r2.skipped, r2.processed, r2.state.newComponents,
        r2.saveEvents, r2.storage)) =
      Except.ok (entries.length, 0, ([] : List Component),
        ([] : List SaveEvent), storageA) := by
  have hfilt : entries.filter
      (fun e => !(s2.existingIndex.contains e.filename)) = [] := by
    apply List.filter_eq_nil_iff.mpr
    intro e he
    simp [hcov e he]
  have hfilt2 : entries.filter
      (fun e => s2.existingIndex.contains e.filename) = entries := by
    apply List.filter_eq_self.mpr
    intro e he
    simp [hcov e he]
  have hmix := foldl_stepEntry_mixed sha1Fn sha256Fn s2.existingIndex entries
    hok
    { storage := storageA, pending := s2.newComponents, processed := 0,
      skipped := 0, trace := [] }
  simp only [loopObs, Prod.mk.injEq] at hmix
  obtain ⟨hσ, hp, hpr, hsk⟩ := hmix
  have hσA : (entries.foldl (stepEntry sha1Fn sha256Fn s2.existingIndex)
      { storage := storageA, pending := s2.newComponents, processed := 0,
        skipped := 0, trace := [] }).storage = storageA := by
    rw [hσ, hfilt]
    rfl
  have hpA : (entries.foldl (stepEntry sha1Fn sha256Fn s2.existingIndex)
      { storage := storageA, pending := s2.newComponents, processed := 0,
        skipped := 0, trace := [] }).pending = [] := by
    rw [hp, hs2new, hfilt]
    rfl
  have hprA : (entries.foldl (stepEntry sha1Fn sha256Fn s2.existingIndex)
      { storage := storageA, pending := s2.newComponents, processed := 0,
        skipped := 0, trace := [] }).processed = 0 := by
    rw [hpr, hfilt]
    rfl
  have hskA : (entries.foldl (stepEntry sha1Fn sha256Fn s2.existingIndex)
      { storage := storageA, pending := s2.newComponents, processed := 0,
        skipped := 0, trace := [] }).skipped = entries.length := by
    rw [hsk, hfilt2]
    simp
  simp only [runSync, hload2, processVendor, processLoop_none_eq_foldl]
  have hpend2 : ({ s2 with newComponents :=
      (entries.foldl (stepEntry sha1Fn sha256Fn s2.existingIndex)
        { storage := storageA, pending := s2.newComponents, processed := 0,
          skipped := 0, trace := [] }).pending } : SyncerState).newComponents
      = [] := hpA
  rw [saveMetadata, if_pos hpend2]
  simp only [Except.map, hσA, hskA, hprA]
  rw [hpA]

theorem runSync_idempotent_core (sha1Fn sha256Fn : List Nat → String)
    (iter1 iter2 : List (String × Component) → List (String × Component))
    (hiter1 : ∀ l, (iter1 l).Perm l)
    (entries : List Entry) (storage0 : Storage) (s1 : SyncerState)
    (r1 : RunResult)
    (hload1 : loadMetadata storage0 initialSyncer = Except.ok s1)
    (hs1new : s1.newComponents = [])
    (hI1 : ∀ fw ∈ s1.existingIndex,
      ∃ doc0, s1.existingMetadata = some doc0 ∧ fw ∈ checksumIndex doc0)
    (hnd1 : ∀ doc, s1.existingMetadata = some doc →
      (doc.component.map Component.id).Nodup)
    (hstor : ∀ doc, s1.existingMetadata = some doc →
      storage0.find metadataKey = some (Obj.metadata doc))
    (hentries : ∀ e ∈ entries, e.outcome = none ∧ e.filename ≠ "" ∧
      e.appstream.releases ≠ [])
    (hr1 : runSync sha1Fn sha256Fn iter1 none ⟨Except.ok entries⟩ storage0 =
      Except.ok r1) :
    (runSync sha1Fn sha256Fn iter2 none ⟨Except.ok entries⟩ r1.storage).map
      (fun r2 => (r2.skipped, r2.processed, r2.state.newComponents,
        r2.saveEvents, r2.storage)) =
      Except.ok (entries.length, 0, ([] : List Component),
        ([] : List SaveEvent), r1.storage) := by
  have hok : ∀ e ∈ entries, e.outcome = none := fun e he => (hentries e he).1
  simp only [runSync, hload1] at hr1
  have hr1st : r1.storage = (saveMetadata iter1
      (processVendor sha1Fn sha256Fn none ⟨Except.ok entries⟩ storage0
        s1).storage
      (processVendor sha1Fn sha256Fn none ⟨Except.ok entries⟩ storage0
        s1).state).1 := by
    have hrec := Except.ok.inj hr1
    rw [← hrec]
  rw [hr1st]
  by_cases hpendP : entries.filter
      (fun e => !(s1.existingIndex.contains e.filename)) = []
  · have hS := run1_storage_noop sha1Fn sha256Fn iter1 entries storage0 s1
      hs1new hok hpendP
    have hcov1 : ∀ e ∈ entries, e.filename ∈ s1.existingIndex := by
      intro e he
      by_contra hng
      have hmem : e ∈ entries.filter
          (fun e' => !(s1.existingIndex.contains e'.filename)) := by
        rw [List.mem_filter]
        exact ⟨he, by simp [hng]⟩
      rw [hpendP] at hmem
      simp at hmem
    rw [hS]
    exact run2_result sha1Fn sha256Fn iter2 entries storage0 s1 hok hload1
      hs1new hcov1
  · obtain ⟨e0, he0f⟩ := List.exists_mem_of_ne_nil _ hpendP
    have he0 : e0 ∈ entries := (List.mem_filter.mp he0f).1
    have hcov := run1_metadata_covers sha1Fn sha256Fn iter1 hiter1 entries
      storage0 s1 hs1new hI1 hnd1 hstor hentries
    obtain ⟨doc1, hfind1, _⟩ := hcov e0 he0
    have hload2 := loadMetadata_some_eq _ initialSyncer doc1 hfind1
    have hcov2 : ∀ e ∈ entries, e.filename ∈
        ({ initialSyncer with
            existingMetadata := some doc1,
            existingIndex :=
              initialSyncer.existingIndex ++ checksumIndex doc1 }
          : SyncerState).existingIndex := by
      intro e he
      obtain ⟨doc1', hfind1', hfw⟩ := hcov e he
      rw [hfind1] at hfind1'
      obtain rfl := Obj.metadata.inj (Option.some.inj hfind1')
      show e.filename ∈ initialSyncer.existingIndex ++ checksumIndex doc1
      exact List.mem_append.mpr (Or.inr hfw)
    exact run2_result sha1Fn sha256Fn iter2 entries _ _ hok hload2 rfl hcov2

/-- C2 (amended): starting from any storage whose metadata object (if
present) is a well-formed document with duplicate-free component
identities, and any catalog whose entries all succeed when attempted (no
per-entry failure), have a non-empty filename and convert to a component
with at least one release, a first full sync run (load → process → save)
followed by a second run over the same unchanged catalog makes the second
run skip every entry (skip count = entry count), process zero entries,
append nothing to the pending list, perform no save effects, and leave the
storage — including the published metadata document — exactly unchanged. -/
theorem runSync_idempotent (sha1Fn sha256Fn : List Nat → String)
    (iter1 iter2 : List (String × Component) → List (String × Component))
    (hiter1 : ∀ l, (iter1 l).Perm l)
    (entries : List Entry) (storage0 : Storage) (r1 : RunResult)
    (hnd : ∀ doc0, storage0.find metadataKey = some (Obj.metadata doc0) →
      (doc0.component.map Component.id).Nodup)
    (hentries : ∀ e ∈ entries, e.outcome = none ∧ e.filename ≠ "" ∧
      e.appstream.releases ≠ [])
    (hr1 : runSync sha1Fn sha256Fn iter1 none ⟨Except.ok entries⟩ storage0 =
      Except.ok r1) :
    (runSync sha1Fn sha256Fn iter2 none ⟨Except.ok entries⟩ r1.storage).map
      (fun r2 => (r2.skipped, r2.processed, r2.state.newComponents,
        r2.saveEvents, r2.storage)) =
      Except.ok (entries.length, 0, ([] : List Component),
        ([] : List SaveEvent), r1.storage) := by
  cases hfind : storage0.find metadataKey with
  | none =>
      exact runSync_idempotent_core sha1Fn sha256Fn iter1 iter2 hiter1 entries
        storage0 initialSyncer r1
        (loadMetadata_none_eq storage0 initialSyncer hfind) rfl
        (by intro fw h; simp [initialSyncer] at h)
        (by intro doc h; simp [initialSyncer] at h)
        (by intro doc h; simp [initialSyncer] at h)
        hentries hr1
  | some o =>
      cases o with
      | metadata doc0 =>
          refine runSync_idempotent_core sha1Fn sha256Fn iter1 iter2 hiter1
            entries storage0
            { initialSyncer with
              existingMetadata := some doc0,
              existingIndex :=
                initialSyncer.existingIndex ++ checksumIndex doc0 } r1
            (loadMetadata_some_eq storage0 initialSyncer doc0 hfind) rfl
            ?_ ?_ ?_ hentries hr1
          · intro fw h
            refine ⟨doc0, rfl, ?_⟩
            simpa [initialSyncer] using h
          · intro doc h
            obtain rfl := Option.some.inj h
            exact hnd doc0 hfind
          · intro doc h
            obtain rfl := Option.some.inj h
            exact hfind
      | corrupt =>
          exfalso
          simp [runSync, loadMetadata, hfind] at hr1
      | cab fw blob =>
          exfalso
          simp [runSync, loadMetadata, hfind] at hr1
      | sig covers =>
          exfalso
          simp [runSync, loadMetadata, hfind] at hr1

/-- C2 counterexample: with a catalog holding a single entry whose
retrieval deterministically fails, the first run publishes nothing, so on
the second run that filename is still not in the membership index: the
skip count of the second run is 0, not the total entry count 1 — the claim
is not true for every catalog. -/
theorem runSync_second_run_cex :
    (secondRunOf ⟨Except.ok [badEntry "a.bin"]⟩ []).map RunResult.skipped =
      some 0 ∧
    [badEntry "a.bin"].length = 1 := by
  exact ⟨by decide, rfl⟩

theorem runSync_idempotent_witness :
    (runSync (fun _ => "h1") (fun _ => "h2") (fun m => m) none
        ⟨Except.ok [okEntry "a.bin"]⟩ c2Run1.storage).map
      (fun r2 => (r2.skipped, r2.processed, r2.state.newComponents,
        r2.saveEvents, r2.storage)) =
      Except.ok ([okEntry "a.bin"].length, 0, ([] : List Component),
        ([] : List SaveEvent), c2Run1.storage) :=
  runSync_idempotent (fun _ => "h1") (fun _ => "h2") (fun m => m) (fun m => m)
    (fun l => List.Perm.refl l) [okEntry "a.bin"] [] c2Run1
    (by intro doc0 h; simp [Storage.find] at h)
    (by decide)
    (by rfl)

end Firmirror
